import Mathlib

/-!
Verification of the piyokvs buffer pool core.

The development embeds three parts of the repository:

* the buffer coordinator event loop (`src/buffer.rs`: `Buffer::handle_data_req`,
  `Buffer::handle_io_res`, `request_eviction`, `Buffer::start`, `Buffer::write_back`)
  as an explicit step function on a coordinator state;
* the storage layer (`src/storage.rs`: `Storage::new`, `write_zeros`, `read_at`,
  and the entry assertion of `Storage::start`);
* the LRU lane (`src/cache.rs`: `LruLane` and its `index`, `pop_back`,
  `push_front`, `unlink`, `touch` operations) as a state machine on a
  vector of doubly linked entries plus a key-to-slot map.

The cache used by the coordinator (`Cache::new`, `contains`, `touch`,
`get_untouched`, `get_with_evicting`, `evicting_new`, `evicting_done`,
`LruIterator`) is code of the repository that is not under `src/`; only its
caller `buffer.rs` is present.  Those operations are modelled from the
specification (sections 4.1 and 4.2) and are marked as such in their doc
comments.  Fallible code (`unwrap`, `unreachable!`, out-of-bounds indexing)
is modelled with `Option`: `none` is a panic of the corresponding Rust code.
-/

/-! ## Coordinator cache, modelled from the spec (the implementation behind
`cache::Cache` used by `buffer.rs` is not in the source tree). -/

/-- Modelled from the spec: a resident cache entry `{key, value, dirty}`
(section 3, "Entry"), together with the *evicting* tag ("An entry is also
tagged evicting while a writeback it initiated has not yet completed"). -/
structure CEntry where
  key : Nat
  value : Nat
  dirty : Bool
  evicting : Bool
deriving DecidableEq, Repr

/-- Modelled from the spec: the cache index (section 3, "Cache index").
`entries` is kept in recency order, most recently used first.  The freed-slot
FIFO holds slot indices for reuse; slot identity is irrelevant to the claims
settled here, so it is not represented. -/
structure CacheM where
  capacity : Nat
  threshold : Nat
  entries : List CEntry
deriving DecidableEq, Repr

/-- Modelled from the spec: number of slots currently tagged evicting. -/
def CacheM.evictingCount (c : CacheM) : Nat :=
  c.entries.countP (·.evicting)

/-- Modelled from the spec: `contains(k)` (section 4.1). -/
def CacheM.contains (c : CacheM) (k : Nat) : Bool :=
  c.entries.any (·.key == k)

/-- Modelled from the spec: `touch(k)` moves the slot for `k` to the list
head and clears its evicting flag (section 4.1).  Touch of an absent key is a
no-op here; `buffer.rs` only calls it when the entry is assumed resident. -/
def CacheM.touch (c : CacheM) (k : Nat) : CacheM :=
  match c.entries.find? (·.key == k) with
  | none => c
  | some e =>
      { c with entries := { e with evicting := false } :: c.entries.eraseP (·.key == k) }

/-- Modelled from the spec: `get_untouched(k)` returns the resident entry for
`k` without changing recency (section 4.1); absent key is a panic (`none`). -/
def CacheM.getUntouched (c : CacheM) (k : Nat) : Option CEntry :=
  c.entries.find? (·.key == k)

/-- Modelled from the spec: the scan of `reclaim()` (section 4.1), operating
on the reversed entry list (tail first): return the first slot whose evicting
flag is clear, setting that flag. -/
def reclaimScan : List CEntry → Option (List CEntry × CEntry)
  | [] => none
  | e :: rest =>
      if e.evicting then
        match reclaimScan rest with
        | none => none
        | some (l, v) => some (e :: l, v)
      else
        some ({ e with evicting := true } :: rest, { e with evicting := true })

/-- Modelled from the spec: `reclaim()` scans the list from tail toward head
and marks the first non-evicting slot (section 4.1); `none` if every slot is
already evicting. -/
def CacheM.reclaim (c : CacheM) : CacheM × Option CEntry :=
  match reclaimScan c.entries.reverse with
  | none => (c, none)
  | some (l, v) => ({ c with entries := l.reverse }, some v)

/-- Modelled from the spec: `get_with_evicting(k)` (section 4.1).  Requires
`!contains(k)`; allocates a slot for `k` at the head, and if the allocation
pushed the index past capacity while fewer than `threshold` slots are
evicting, selects a victim via `reclaim()`. -/
def CacheM.getWithEvicting (c : CacheM) (k : Nat) : CacheM × Option CEntry :=
  let c1 : CacheM := { c with entries := ⟨k, 0, false, false⟩ :: c.entries }
  if c.capacity < c1.entries.length ∧ c1.evictingCount < c.threshold then
    c1.reclaim
  else
    (c1, none)

/-- Modelled from the spec: `evicting_new()` selects an additional victim via
`reclaim()` (section 4.1); `buffer.rs` pattern-matches its result as an
`Option`. -/
def CacheM.evictingNew (c : CacheM) : CacheM × Option CEntry :=
  c.reclaim

/-- Modelled from the spec: `evicting_done(k)` removes `k` from the index and
unlinks the slot (section 4.1); the freed-slot FIFO push is not represented. -/
def CacheM.evictingDone (c : CacheM) (k : Nat) : CacheM :=
  { c with entries := c.entries.eraseP (·.key == k) }

/-! ## The coordinator event loop (`src/buffer.rs`). -/

/-- An element of a per-key waiter queue (`ResponseQueue` in `buffer.rs`,
`VecDeque<Option<Sender<DataResponse>>>`): a client slot carrying a reply
channel (`Some(sender)`, identified here by a client id) or a writeback
placeholder (`None`). -/
inductive QSlot where
  | client (c : Nat)
  | placeholder
deriving DecidableEq, Repr

/-- Observable effects of one coordinator step: entry handles sent to reply
channels, storage requests emitted, and pops from the front of a waiter
queue (recorded so that handle accounting can be stated). -/
inductive Effect where
  | respond (c : Nat) (k : Nat)
  | readReq (k : Nat)
  | writeReq (k : Nat) (v : Nat)
  | popClient (k : Nat)
  | popPlaceholder (k : Nat)
deriving DecidableEq, Repr

/-- Events consumed by the coordinator: client `DataRequest`s (`Lock` with a
reply channel, `Unlock`) and storage completions (`IoResponse` with an `Ok`
result; an `Err` result is a panic in `handle_io_res` and is not part of the
steady-state claims). -/
inductive Event where
  | lock (k : Nat) (c : Nat)
  | unlock (k : Nat)
  | ioRead (k : Nat)
  | ioWrite (k : Nat)
deriving DecidableEq, Repr

/-- Coordinator state: the in-flight I/O key set (`io_req_keys : HashSet`),
the per-key waiter queues (`data_res_queues : HashMap`, a partial map), and
the cache. -/
structure BufSt where
  ioKeys : List Nat
  queues : Nat → Option (List QSlot)
  cache : CacheM

/-- `HashSet::insert` on the in-flight key list (no duplicates). -/
def ioInsert (l : List Nat) (k : Nat) : List Nat :=
  if k ∈ l then l else k :: l

/-- `HashSet::remove` on the in-flight key list. -/
def ioRemove (l : List Nat) (k : Nat) : List Nat :=
  l.filter (fun x => x ≠ k)

/-- Map update for the waiter-queue map. -/
def qset (m : Nat → Option (List QSlot)) (k : Nat) (q : List QSlot) :
    Nat → Option (List QSlot) :=
  fun x => if x = k then some q else m x

/-- `HashMap::remove` for the waiter-queue map. -/
def qdel (m : Nat → Option (List QSlot)) (k : Nat) :
    Nat → Option (List QSlot) :=
  fun x => if x = k then none else m x

/-- `request_eviction` (buffer.rs lines 228-241): looks up the victim's queue
(`queues.get_mut(&entry.key).unwrap()` — a missing queue is a panic, `none`),
pushes a writeback placeholder at its front, emits
`Write(victim.key, victim.value)` and inserts the victim key into the
in-flight set. -/
def request_eviction (s : BufSt) (victim : CEntry) : Option (BufSt × List Effect) :=
  match s.queues victim.key with
  | none => none
  | some q =>
      some ({ s with
                queues := qset s.queues victim.key (QSlot.placeholder :: q),
                ioKeys := ioInsert s.ioKeys victim.key },
            [Effect.writeReq victim.key victim.value])

/-- `Lock(key)` handling of `Buffer::handle_data_req` (buffer.rs lines
95-133): append a client slot at the tail of `key`'s queue (creating the
queue if absent); if the queue was empty, either respond immediately from the
cache (hit) or, on a miss, run `get_with_evicting`, request the victim's
eviction first, then emit the read and mark `key` in flight; if the queue was
non-empty, only `touch(key)`. -/
def handleLock (s : BufSt) (k : Nat) (c : Nat) : Option (BufSt × List Effect) :=
  let q0 := (s.queues k).getD []
  let canBeLocked := q0.isEmpty
  let s1 : BufSt := { s with queues := qset s.queues k (q0 ++ [QSlot.client c]) }
  if canBeLocked then
    if s1.cache.contains k then
      let cache2 := s1.cache.touch k
      match cache2.getUntouched k with
      | none => none
      | some _ => some ({ s1 with cache := cache2 }, [Effect.respond c k])
    else
      match s1.cache.getWithEvicting k with
      | (cache2, some v) =>
          match request_eviction { s1 with cache := cache2 } v with
          | none => none
          | some (s3, effs) =>
              some ({ s3 with ioKeys := ioInsert s3.ioKeys k },
                    effs ++ [Effect.readReq k])
      | (cache2, none) =>
          some ({ s1 with cache := cache2, ioKeys := ioInsert s1.ioKeys k },
                [Effect.readReq k])
  else
    some ({ s1 with cache := s1.cache.touch k }, [])

/-- `Unlock(key)` handling of `Buffer::handle_data_req` (buffer.rs lines
135-149): pop the front of `key`'s queue (missing queue or empty queue is an
`unwrap` panic); if a client slot is then at the front, respond to it with
`get_untouched(key)`.  The queue is left in the map even when it became
empty. -/
def handleUnlock (s : BufSt) (k : Nat) : Option (BufSt × List Effect) :=
  match s.queues k with
  | none => none
  | some [] => none
  | some (sl :: rest) =>
      let popEff := match sl with
        | QSlot.client _ => Effect.popClient k
        | QSlot.placeholder => Effect.popPlaceholder k
      let s1 : BufSt := { s with queues := qset s.queues k rest }
      match rest.head? with
      | some (QSlot.client c) =>
          match s1.cache.getUntouched k with
          | none => none
          | some _ => some (s1, [popEff, Effect.respond c k])
      | _ => some (s1, [popEff])

/-- `Io::Read(key)` handling of `Buffer::handle_io_res` (buffer.rs lines
155-168): remove `key` from the in-flight set and respond to the client slot
at the front of `key`'s queue; a missing queue, an empty queue or a
placeholder at the front is a panic (`unwrap` / `unreachable!`). -/
def handleIoRead (s : BufSt) (k : Nat) : Option (BufSt × List Effect) :=
  let s1 : BufSt := { s with ioKeys := ioRemove s.ioKeys k }
  match s1.queues k with
  | none => none
  | some q =>
      match q.head? with
      | some (QSlot.client c) =>
          match s1.cache.getUntouched k with
          | none => none
          | some _ => some (s1, [Effect.respond c k])
      | _ => none

/-- `Io::Write(key)` handling of `Buffer::handle_io_res` (buffer.rs lines
170-209): remove `key` from the in-flight set, pop the front of `key`'s
queue; if a client slot is then at the front, respond to it and select a
replacement victim via `evicting_new` (requesting its eviction when one is
returned); a placeholder then at the front is `unreachable!`; if the queue is
now empty, call `evicting_done(key)` and delete the queue. -/
def handleIoWrite (s : BufSt) (k : Nat) : Option (BufSt × List Effect) :=
  let s1 : BufSt := { s with ioKeys := ioRemove s.ioKeys k }
  match s1.queues k with
  | none => none
  | some [] => none
  | some (sl :: rest) =>
      let popEff := match sl with
        | QSlot.client _ => Effect.popClient k
        | QSlot.placeholder => Effect.popPlaceholder k
      let s2 : BufSt := { s1 with queues := qset s1.queues k rest }
      match rest.head? with
      | some (QSlot.client c) =>
          match s2.cache.getUntouched k with
          | none => none
          | some _ =>
              match s2.cache.evictingNew with
              | (cache2, some v) =>
                  match request_eviction { s2 with cache := cache2 } v with
                  | none => none
                  | some (s4, effs2) =>
                      some (s4, [popEff, Effect.respond c k] ++ effs2)
              | (cache2, none) =>
                  some ({ s2 with cache := cache2 },
                        [popEff, Effect.respond c k])
      | some QSlot.placeholder => none
      | none =>
          some ({ s2 with cache := s2.cache.evictingDone k,
                          queues := qdel s2.queues k },
                [popEff])

/-- One iteration of the coordinator event loop (`Buffer::start`), dispatching
to `handle_data_req` or `handle_io_res`; `none` is a panic. -/
def Buffer.step (s : BufSt) : Event → Option (BufSt × List Effect)
  | Event.lock k c => handleLock s k c
  | Event.unlock k => handleUnlock s k
  | Event.ioRead k => handleIoRead s k
  | Event.ioWrite k => handleIoWrite s k

/-- Run the coordinator over a sequence of events, accumulating effects. -/
def Buffer.run (s : BufSt) : List Event → Option (BufSt × List Effect)
  | [] => some (s, [])
  | e :: rest =>
      match Buffer.step s e with
      | none => none
      | some (s1, effs1) =>
          match Buffer.run s1 rest with
          | none => none
          | some (s2, effs2) => some (s2, effs1 ++ effs2)

/-- The coordinator state produced by `Buffer::new(capacity, threthold, _)`:
no in-flight I/O, no waiter queues, empty cache. -/
def Buffer.init (capacity threshold : Nat) : BufSt :=
  { ioKeys := [], queues := fun _ => none, cache := ⟨capacity, threshold, []⟩ }

/-! ## Trace observables for the lock-arbiter claims. -/

/-- Clients whose `Lock(k)` requests were processed, in processing order. -/
def arrivals (evs : List Event) (k : Nat) : List Nat :=
  evs.filterMap fun e =>
    match e with
    | Event.lock k' c => if k' = k then some c else none
    | _ => none

/-- Recipients of entry handles for key `k`, in send order. -/
def grants (effs : List Effect) (k : Nat) : List Nat :=
  effs.filterMap fun ef =>
    match ef with
    | Effect.respond c k' => if k' = k then some c else none
    | _ => none

/-- Number of client slots popped from the front of `k`'s queue. -/
def clientPops (effs : List Effect) (k : Nat) : Nat :=
  effs.countP (fun ef => ef = Effect.popClient k)

/-- Entry handles outstanding for key `k`: handles sent minus client slots
popped (a pop of the holder's slot retires its handle). -/
def outstanding (effs : List Effect) (k : Nat) : Nat :=
  (grants effs k).length - clientPops effs k

/-- The client slots in a waiter queue, in queue order. -/
def queueClients (q : List QSlot) : List Nat :=
  q.filterMap fun sl =>
    match sl with
    | QSlot.client c => some c
    | QSlot.placeholder => none

/-- The client slots of an optional waiter queue. -/
def queueClientsOpt (o : Option (List QSlot)) : List Nat :=
  queueClients (o.getD [])

/-! ## Shutdown: drain and write-back (`Buffer::start` after the main loop,
and `Buffer::write_back`). -/

/-- Whether an event can arrive on the storage completion channel. -/
def ioEvent : Event → Bool
  | Event.ioRead _ => true
  | Event.ioWrite _ => true
  | _ => false

/-- The drain loop of `Buffer::start` (buffer.rs lines 83-88): after the
client channel closes, receive storage completions through `handle_io_res`
until the in-flight set is empty.  `evs` are the completions the storage
workers deliver; running out of completions while keys are still in flight
blocks forever (`none`). -/
def Buffer.drain (s : BufSt) : List Event → Option BufSt
  | [] => if s.ioKeys = [] then some s else none
  | e :: rest =>
      if s.ioKeys = [] then some s
      else if ioEvent e then
        match Buffer.step s e with
        | none => none
        | some (s1, _) => Buffer.drain s1 rest
      else none

/-- Effect of one `Io::Write(key, value)` request on the backing file, as
performed by a storage worker (storage.rs `write_at`). -/
def fileWrite (f : Nat → Nat) (e : CEntry) : Nat → Nat :=
  if e.dirty then (fun k => if k = e.key then e.value else f k) else f

/-- `Buffer::write_back` (buffer.rs lines 213-225): iterate the LRU list
(least recently used first, as `LruIterator` walks from the tail) and, for
every dirty entry, emit `Write(entry.key, entry.value)` and await its
completion; each write lands on the backing file before the next is issued. -/
def writeBackFile (c : CacheM) (f : Nat → Nat) : Nat → Nat :=
  c.entries.reverse.foldl fileWrite f

/-- The shutdown path of `Buffer::start`: drain outstanding completions,
then run the write-back phase against the backing file `f`. -/
def Buffer.shutdownRun (s : BufSt) (evs : List Event) (f : Nat → Nat) :
    Option (BufSt × (Nat → Nat)) :=
  match Buffer.drain s evs with
  | none => none
  | some s' => some (s', writeBackFile s'.cache f)

/-! ## Storage (`src/storage.rs`). -/

/-- `write_zeros(writer, size)` (storage.rs lines 123-137): repeatedly write
`min(size, 4096)` zero bytes until `size` bytes have been written; the result
is the byte stream appended to the writer. -/
def writeZeros (size : Nat) : List Nat :=
  if h : size = 0 then []
  else
    let bufSize := min size 4096
    List.replicate bufSize 0 ++ writeZeros (size - bufSize)
termination_by size
decreasing_by
  exact Nat.sub_lt (Nat.pos_of_ne_zero h) (Nat.lt_min.mpr ⟨Nat.pos_of_ne_zero h, by norm_num⟩)

/-- `Storage::new(path, n_data)` (storage.rs lines 62-71): create the backing
file holding `n_data * 8` zero bytes. -/
def Storage.newFile (nData : Nat) : List Nat :=
  writeZeros (nData * 8)

/-- Little-endian decoding of a byte list into an unsigned integer, as the
`transmute`-based `read` does on a little-endian machine. -/
def decodeLe (bs : List Nat) : Nat :=
  bs.foldr (fun b acc => b + 256 * acc) 0

/-- `read_at` handling of an `Io::Read(key)` request (storage.rs lines
139-163): seek to `key * 8` and read exactly 8 bytes into the destination
cell; fewer than 8 bytes before end of file is an `Err` (`none`).  `some v`
is an `Ok` completion with `v` stored in the destination cell. -/
def storageRead (file : List Nat) (key : Nat) : Option Nat :=
  if key * 8 + 8 ≤ file.length then
    some (decodeLe ((file.drop (key * 8)).take 8))
  else
    none

/-- The entry assertion of `Storage::start` (storage.rs line 80):
`(n_threads == 1 && res_tx.capacity().is_none()) || n_threads > 1`, where
`cap = none` is an unbounded response channel.  `false` is a panic. -/
def Storage.startAssert (nThreads : Nat) (cap : Option Nat) : Bool :=
  (nThreads == 1 && cap.isNone) || decide (1 < nThreads)

/-! ## The LRU lane (`src/cache.rs`, `LruLane`). -/

/-- `LruLaneEntry` (cache.rs lines 135-149). -/
structure LruEntry where
  key : Nat
  next : Option Nat
  prev : Option Nat
deriving DecidableEq, Repr

/-- `LruLane` (cache.rs lines 151-157): the key-to-slot `HashMap` is an
association list, the entry `Vec` a list indexed by position. -/
structure LruLane where
  capacity : Nat
  keys : List (Nat × Nat)
  entries : List LruEntry
  head : Option Nat
  tail : Option Nat
deriving DecidableEq, Repr

/-- `HashMap::get` on the association list. -/
def hmLookup : List (Nat × Nat) → Nat → Option Nat
  | [], _ => none
  | p :: rest, k => if p.1 = k then some p.2 else hmLookup rest k

/-- `HashMap::insert` on the association list (replace or append). -/
def hmInsert : List (Nat × Nat) → Nat → Nat → List (Nat × Nat)
  | [], k, v => [(k, v)]
  | p :: rest, k, v => if p.1 = k then (k, v) :: rest else p :: hmInsert rest k v

/-- `HashMap::remove` on the association list. -/
def hmErase : List (Nat × Nat) → Nat → List (Nat × Nat)
  | [], _ => []
  | p :: rest, k => if p.1 = k then rest else p :: hmErase rest k

/-- `LruLane::new(capacity)` (cache.rs lines 163-171). -/
def LruLane.new (capacity : Nat) : LruLane :=
  ⟨capacity, [], [], none, none⟩

/-- `LruLane::pop_back` (cache.rs lines 198-202): unhook the tail slot,
returning its index; `tail.unwrap()` on an empty list is a panic (`none`). -/
def LruLane.popBack (l : LruLane) : Option (LruLane × Nat) := do
  let oldTail ← l.tail
  let e ← l.entries[oldTail]?
  pure ({ l with tail := e.prev }, oldTail)

/-- `LruLane::push_front` (cache.rs lines 204-216). -/
def LruLane.pushFront (l : LruLane) (i : Nat) : Option LruLane :=
  let newHead := some i
  if l.tail = none then
    pure { l with tail := newHead, head := newHead }
  else do
    let e ← l.entries[i]?
    let l1 := { l with entries := l.entries.set i { e with next := l.head, prev := none } }
    let l2 ←
      match l.head with
      | some h => do
          let he ← l1.entries[h]?
          pure { l1 with entries := l1.entries.set h { he with prev := newHead } }
      | none => pure l1
    pure { l2 with head := newHead }

/-- `LruLane::unlink` (cache.rs lines 218-233); every `unwrap` is a panic
(`none`). -/
def LruLane.unlink (l : LruLane) (i : Nat) : Option LruLane := do
  let e ← l.entries[i]?
  let h ← l.head
  let l1 ←
    if i = h then
      pure { l with head := e.next }
    else do
      let p ← e.prev
      let pe ← l.entries[p]?
      pure { l with entries := l.entries.set p { pe with next := e.next } }
  let t ← l.tail
  if i = t then
    pure { l1 with tail := e.prev }
  else do
    let n ← e.next
    let ne ← l1.entries[n]?
    pure { l1 with entries := l1.entries.set n { ne with prev := e.prev } }

/-- `LruLane::touch` (cache.rs lines 235-240). -/
def LruLane.touch (l : LruLane) (i : Nat) : Option LruLane := do
  let h ← l.head
  if i = h then pure l
  else do
    let l1 ← l.unlink i
    l1.pushFront i

/-- `LruLane::index` (cache.rs lines 173-196). -/
def LruLane.index (l : LruLane) (key : Nat) : Option (LruLane × Nat × Bool) :=
  match hmLookup l.keys key with
  | some i => do
      let l' ← l.touch i
      pure (l', i, false)
  | none => do
      let (l1, newHeadI, uninitialized) ←
        if l.entries.length = l.capacity then do
          let (lp, i) ← l.popBack
          let e ← lp.entries[i]?
          match hmLookup lp.keys e.key with
          | none => none
          | some _ =>
              pure (({ lp with keys := hmErase lp.keys e.key,
                               entries := lp.entries.set i { e with key := key } },
                     i, false) : LruLane × Nat × Bool)
        else
          pure ({ l with entries := l.entries ++ [⟨key, none, none⟩] },
                l.entries.length, true)
      let l2 ← l1.pushFront newHeadI
      pure ({ l2 with keys := hmInsert l2.keys key newHeadI }, newHeadI, uninitialized)

/-- Run a sequence of `index` calls. -/
def LruLane.runKeys : LruLane → List Nat → Option LruLane
  | l, [] => some l
  | l, k :: rest =>
      match l.index k with
      | none => none
      | some (l', _, _) => l'.runKeys rest

/-- The `prev` link of slot `i`. -/
def prevAt (l : LruLane) (i : Nat) : Option Nat :=
  (l.entries.getD i ⟨0, none, none⟩).prev

/-- The `next` link of slot `i`. -/
def nextAt (l : LruLane) (i : Nat) : Option Nat :=
  (l.entries.getD i ⟨0, none, none⟩).next

/-- The key stored in slot `i`. -/
def lkeyAt (l : LruLane) (i : Nat) : Nat :=
  (l.entries.getD i ⟨0, none, none⟩).key

/-- Walk `prev` links from a starting point with bounded fuel, as
`LruLaneIterator` does from the tail (cache.rs lines 243-268). -/
def travGo (l : LruLane) : Nat → Option Nat → List Nat
  | 0, _ => []
  | _ + 1, none => []
  | n + 1, some i => i :: travGo l n (prevAt l i)

/-- The tail-to-head traversal of the recency list by `prev` links. -/
def LruLane.traversal (l : LruLane) : List Nat :=
  travGo l l.entries.length l.tail

/-- The recency list `os` (head first) is correctly linked: the head's
`prev` is `p`, every other slot's `prev` points at its predecessor, and every
non-final slot's `next` points at its successor.  The final slot's `next` is
unconstrained: `pop_back` leaves the new tail's `next` stale. -/
def linkedFrom (l : LruLane) (p : Option Nat) (os : List Nat) : Prop :=
  (∀ h, os.head? = some h → prevAt l h = p) ∧
  List.Chain' (fun a b => nextAt l a = some b ∧ prevAt l b = some a) os

/-- Link invariant of the recency list: `os` lists the slots from head to
tail, `head` and `tail` point at its ends, all slots are in bounds and the
links are correct in the sense of `linkedFrom`. -/
structure LinkInv (l : LruLane) (os : List Nat) : Prop where
  nodup : os.Nodup
  headEq : l.head = os.head?
  tailEq : l.tail = os.getLast?
  memLt : ∀ i ∈ os, i < l.entries.length
  lnk : linkedFrom l none os

/-- Map invariant: the key-to-slot map is functional, maps exactly the slots
of the recency list, and agrees with the keys stored in the entries. -/
structure KeysInv (l : LruLane) (os : List Nat) : Prop where
  fstNodup : (l.keys.map Prod.fst).Nodup
  sound : ∀ k i, hmLookup l.keys k = some i → i ∈ os ∧ lkeyAt l i = k
  complete : ∀ i ∈ os, hmLookup l.keys (lkeyAt l i) = some i
  keysLen : l.keys.length = os.length

/-- Full invariant of an `LruLane` with recency list `os` (head first). -/
def LaneInv (l : LruLane) (os : List Nat) : Prop :=
  LinkInv l os ∧ KeysInv l os ∧
  os.length = l.entries.length ∧ l.entries.length ≤ l.capacity

/-- Observable agreement between the key-to-slot map and the linked list,
stated through the tail-to-head `prev`-traversal: the traversal visits
exactly the mapped slots, once each, ending at the head; each mapped slot
carries its mapped key; `next` and `prev` agree on every slot the tail's
possibly-stale `next` pointer aside; and the map never exceeds capacity. -/
def LruLane.MapListAgree (l : LruLane) : Prop :=
  l.traversal.Nodup ∧
  (∀ p ∈ l.keys, p.2 ∈ l.traversal ∧ lkeyAt l p.2 = p.1) ∧
  (∀ i ∈ l.traversal, hmLookup l.keys (lkeyAt l i) = some i) ∧
  l.traversal.getLast? = l.head ∧
  (∀ i ∈ l.traversal, l.tail ≠ some i →
    ∃ j, nextAt l i = some j ∧ prevAt l j = some i ∧ j ∈ l.traversal) ∧
  l.keys.length ≤ l.capacity

/-! ## Concrete states and traces used by counterexamples and witnesses. -/

/-- A trace on a capacity-2, threshold-1 coordinator: keys 0 and 1 are read
in and granted to clients 1 and 2, who hold their locks; client 3 then faults
on key 2, which evicts key 0 — an entry whose holder has not unlocked. -/
def doubleGrantTrace : List Event :=
  [Event.lock 0 1, Event.ioRead 0, Event.lock 1 2, Event.ioRead 1,
   Event.lock 2 3, Event.ioWrite 0]

/-- A short trace: client 1 faults on key 0 and is granted on the read
completion. -/
def fifoWitnessTrace : List Event :=
  [Event.lock 0 1, Event.ioRead 0]

/-- A coordinator state in which client 1 holds key 0 and no one waits. -/
def holderSt : BufSt :=
  ⟨[], qset (fun _ => none) 0 [QSlot.client 1], ⟨2, 1, [⟨0, 5, true, false⟩]⟩⟩

/-- A full capacity-2 cache whose resident keys 0 and 1 have no waiter
queues at all. -/
def noQueueSt : BufSt :=
  ⟨[], fun _ => none, ⟨2, 1, [⟨0, 5, false, false⟩, ⟨1, 7, false, false⟩]⟩⟩

/-- A full capacity-2 cache whose resident keys 0 and 1 have (empty) waiter
queues, as they do after their holders unlocked. -/
def emptyQueueSt : BufSt :=
  ⟨[], qset (qset (fun _ => none) 0 []) 1 [],
   ⟨2, 1, [⟨0, 5, false, false⟩, ⟨1, 7, true, false⟩]⟩⟩

/-- A coordinator state in which key 0 is being evicted: its queue holds only
the writeback placeholder and its write is in flight. -/
def evictingSt : BufSt :=
  ⟨[0], qset (fun _ => none) 0 [QSlot.placeholder], ⟨2, 1, [⟨0, 3, true, true⟩]⟩⟩

/-- A drained coordinator state with one dirty and one clean resident
entry. -/
def drainedSt : BufSt :=
  ⟨[], fun _ => none, ⟨2, 1, [⟨0, 3, true, false⟩, ⟨1, 4, false, false⟩]⟩⟩

/-! ## Theorems. -/

/-- C9: `Storage::start` permits a single worker only with an unbounded
response channel: the entry assertion accepts every `n_threads > 1`
regardless of channel bounds, accepts `n_threads = 1` exactly when the
response channel has no capacity bound, and panics for every other
configuration, including `n_threads = 0`. -/
theorem storage_start_assertion (n : Nat) (cap : Option Nat) :
    Storage.startAssert n cap = true ↔ (1 < n ∨ (n = 1 ∧ cap = none)) := by
  cases cap with
  | none =>
    simp only [Storage.startAssert, Option.isNone_none, Bool.and_true, Bool.or_eq_true,
      beq_iff_eq, decide_eq_true_eq, and_true]
    tauto
  | some c =>
    simp only [Storage.startAssert, Option.isNone_some, Bool.and_false, Bool.false_or,
      decide_eq_true_eq]
    constructor
    · intro h1; exact Or.inl h1
    · rintro (h1 | ⟨h1, h2⟩)
      · exact h1
      · cases h2

/-- C10: processing `Unlock(k)` with no waiter queue for `k`, or with an
empty queue for `k`, panics on an `unwrap` in `handle_data_req`: the step has
no successful outcome, so no response is ever sent. -/
theorem unlock_unmatched_panics (s : BufSt) (k : Nat)
    (h : s.queues k = none ∨ s.queues k = some []) :
    Buffer.step s (Event.unlock k) = none := by
  rcases h with h | h <;> simp [Buffer.step, handleUnlock, h]

/-- Witness for C10 at the initial coordinator state, which has no queues. -/
theorem unlock_unmatched_panics_witness :
    ((Buffer.init 2 1).queues 0 = none ∨ (Buffer.init 2 1).queues 0 = some []) ∧
    Buffer.step (Buffer.init 2 1) (Event.unlock 0) = none :=
  ⟨Or.inl rfl, unlock_unmatched_panics (Buffer.init 2 1) 0 (Or.inl rfl)⟩

/-- C1 fails on the code: on `doubleGrantTrace` the coordinator sends two
entry handles for key 0 to client 1 — once when the read completes and again
when the writeback of the eviction (which victimised the still-held entry 0)
completes — without the head client slot ever being popped, so two handles
for key 0 are outstanding at once. -/
theorem double_grant_on_held_eviction :
    (Buffer.run (Buffer.init 2 1) doubleGrantTrace).map
      (fun p => (grants p.2 0, clientPops p.2 0, outstanding p.2 0)) =
    some ([1, 1], 0, 2) := by
  decide

/-- C2 fails as stated: on `doubleGrantTrace` the reply channel of client 1
receives two handles for key 0 although only one `Lock(0)` was processed, so
the grant sequence for key 0 is not the processed lock order (not even a
prefix of it). -/
theorem grants_not_lock_order :
    ¬ (∀ evs s effs, Buffer.run (Buffer.init 2 1) evs = some (s, effs) →
        ∀ k, ∃ n, grants effs k = (arrivals evs k).take n) := by
  intro h
  have hg : (Buffer.run (Buffer.init 2 1) doubleGrantTrace).map
      (fun p => grants p.2 0) = some [1, 1] := by decide
  cases hr : Buffer.run (Buffer.init 2 1) doubleGrantTrace with
  | none => rw [hr] at hg; cases hg
  | some p =>
      obtain ⟨n, hn⟩ := h doubleGrantTrace p.1 p.2 (by rw [hr]) 0
      rw [hr] at hg
      have hg2 : grants p.2 0 = [1, 1] := by simpa using hg
      have ha : arrivals doubleGrantTrace 0 = [1] := by decide
      rw [hg2, ha] at hn
      have hl := congrArg List.length hn
      simp [List.length_take] at hl
      omega

/-- C4 fails as stated: popping the last client slot of key 0's queue on
`Unlock(0)` leaves the now-empty queue in the map — `handle_data_req` has no
deletion branch, so the queue for key 0 is still present (as `some []`). -/
theorem unlock_leaves_empty_queue :
    ¬ (∀ (s : BufSt) (k : Nat) (sl : QSlot), s.queues k = some [sl] →
        ∀ p, Buffer.step s (Event.unlock k) = some p → p.1.queues k = none) := by
  intro h
  have hstep : (Buffer.step holderSt (Event.unlock 0)).map (fun p => p.1.queues 0) =
      some (some []) := by decide
  cases hr : Buffer.step holderSt (Event.unlock 0) with
  | none => rw [hr] at hstep; cases hstep
  | some p =>
      have h2 := h holderSt 0 (QSlot.client 1) (by decide) p hr
      rw [hr] at hstep
      have h3 : p.1.queues 0 = some [] := by simpa using hstep
      rw [h2] at h3
      cases h3

/-- C5 fails as stated: in `noQueueSt` a miss on key 2 returns the resident
entry for key 1 as eviction victim, but key 1 has no waiter queue;
`request_eviction` panics on `queues.get_mut(&entry.key).unwrap()` instead of
creating the queue, so the whole step has no successful outcome. -/
theorem eviction_panics_without_queue :
    (noQueueSt.cache.getWithEvicting 2).2 = some ⟨1, 7, false, true⟩ ∧
    noQueueSt.queues 1 = none ∧
    (Buffer.step noQueueSt (Event.lock 2 9)).isNone = true := by
  refine ⟨by decide, rfl, by decide⟩

/-- C8 fails as stated: after `index 0; index 1; index 2` on a capacity-2
lane, slot 1 is on the list (it is the tail) and carries `next = some 0`,
yet slot 0's `prev` link is `none` — `pop_back` leaves the new tail's stale
`next` pointer in place, so the next and prev links are not mutually
consistent. -/
theorem lru_stale_next_link :
    ¬ (∀ l, (LruLane.new 2).runKeys [0, 1, 2] = some l →
        ∀ i ∈ l.traversal, ∀ j, nextAt l i = some j → prevAt l j = some i) := by
  intro h
  have h2 := h ⟨2, [(1, 1), (2, 0)],
                [⟨2, some 1, none⟩, ⟨1, some 0, some 0⟩], some 0, some 1⟩
    (by decide) 1 (by decide) 0 (by decide)
  exact absurd h2 (by decide)

/-- Membership in the in-flight set after a `HashSet::insert`. -/
theorem mem_ioInsert (l : List Nat) (k a : Nat) :
    a ∈ ioInsert l k ↔ a = k ∨ a ∈ l := by
  unfold ioInsert
  split <;> rename_i h
  · constructor
    · exact Or.inr
    · rintro (rfl | ha)
      · exact h
      · exact ha
  · simp

/-- A removed key is no longer in the in-flight set. -/
theorem not_mem_ioRemove (l : List Nat) (k : Nat) : k ∉ ioRemove l k := by
  unfold ioRemove
  simp

/-- C4 amended: processing `Unlock(k)` pops the head of `k`'s waiter queue;
if a client slot is then at the head, the coordinator responds to it with
`get_untouched(k)`; but the queue is *not* deleted from the queue map when
the pop leaves it empty — it stays in the map (as an empty queue) until a
`Write` completion for `k` finds it empty. -/
theorem unlock_spec (s : BufSt) (k : Nat) (sl : QSlot) (rest : List QSlot)
    (hq : s.queues k = some (sl :: rest))
    (hres : ∀ c, rest.head? = some (QSlot.client c) → (s.cache.getUntouched k).isSome) :
    ∃ s' effs, Buffer.step s (Event.unlock k) = some (s', effs) ∧
      s'.queues k = some rest ∧
      (∀ c, rest.head? = some (QSlot.client c) → Effect.respond c k ∈ effs) ∧
      s'.queues k ≠ none := by
  simp only [Buffer.step, handleUnlock, hq]
  cases hh : rest.head? with
  | none =>
      refine ⟨_, _, rfl, by simp [qset], ?_, by simp [qset]⟩
      intro c hc
      simp at hc
  | some sl2 =>
      cases sl2 with
      | placeholder =>
          refine ⟨_, _, rfl, by simp [qset], ?_, by simp [qset]⟩
          intro c hc
          simp at hc
      | client c =>
          obtain ⟨e, he⟩ := Option.isSome_iff_exists.mp (hres c hh)
          rw [he]
          refine ⟨_, _, rfl, by simp [qset], ?_, by simp [qset]⟩
          intro c' hc'
          simp only [Option.some.injEq, QSlot.client.injEq] at hc'
          subst hc'
          simp

/-- Witness for C4 amended: client 1 unlocks key 0 in `holderSt`; the queue
for key 0 becomes empty yet remains in the map. -/
theorem unlock_spec_witness :
    holderSt.queues 0 = some [QSlot.client 1] ∧
    (∃ s' effs, Buffer.step holderSt (Event.unlock 0) = some (s', effs) ∧
      s'.queues 0 = some [] ∧
      (∀ c, ([] : List QSlot).head? = some (QSlot.client c) → Effect.respond c 0 ∈ effs) ∧
      s'.queues 0 ≠ none) :=
  ⟨rfl, unlock_spec holderSt 0 (QSlot.client 1) [] rfl (fun _ hc => nomatch hc)⟩

/-- C5 amended: when a cache miss on `k` returns an eviction victim, the
coordinator pushes a writeback placeholder at the front of the victim's
waiter queue — which must already exist, since `request_eviction` `unwrap`s
the lookup instead of creating the queue — then emits
`Write(victim.key, victim.value)` and inserts `victim.key` into the in-flight
set (and also emits the `Read(k)` and marks `k` in flight). -/
theorem eviction_enqueues_writeback (s : BufSt) (k c : Nat)
    (hmiss : s.cache.contains k = false)
    (hempty : (s.queues k).getD [] = [])
    (cache2 : CacheM) (v : CEntry)
    (hev : s.cache.getWithEvicting k = (cache2, some v))
    (q : List QSlot)
    (hq : qset s.queues k [QSlot.client c] v.key = some q) :
    ∃ s' effs, Buffer.step s (Event.lock k c) = some (s', effs) ∧
      s'.queues v.key = some (QSlot.placeholder :: q) ∧
      Effect.writeReq v.key v.value ∈ effs ∧
      v.key ∈ s'.ioKeys ∧
      Effect.readReq k ∈ effs ∧ k ∈ s'.ioKeys := by
  simp only [Buffer.step, handleLock, hempty, List.isEmpty_nil, List.nil_append, if_true]
  simp only [hmiss, Bool.false_eq_true, if_false]
  simp only [hev, request_eviction, hq]
  refine ⟨_, _, rfl, by simp [qset], by simp, ?_, by simp, ?_⟩
  · simp [mem_ioInsert]
  · simp [mem_ioInsert]

/-- Witness for C5 amended: a miss on key 2 in `emptyQueueSt` evicts key 1,
whose (empty) queue exists; the placeholder lands at its front and both
storage requests go out. -/
theorem eviction_enqueues_writeback_witness :
    emptyQueueSt.cache.contains 2 = false ∧
    (emptyQueueSt.queues 2).getD [] = [] ∧
    emptyQueueSt.cache.getWithEvicting 2 =
      (⟨2, 1, [⟨2, 0, false, false⟩, ⟨0, 5, false, false⟩, ⟨1, 7, true, true⟩]⟩,
       some ⟨1, 7, true, true⟩) ∧
    qset emptyQueueSt.queues 2 [QSlot.client 9] 1 = some [] ∧
    (∃ s' effs, Buffer.step emptyQueueSt (Event.lock 2 9) = some (s', effs) ∧
      s'.queues 1 = some [QSlot.placeholder] ∧
      Effect.writeReq 1 7 ∈ effs ∧ 1 ∈ s'.ioKeys ∧
      Effect.readReq 2 ∈ effs ∧ 2 ∈ s'.ioKeys) :=
  ⟨by decide, rfl, by decide, rfl,
   eviction_enqueues_writeback emptyQueueSt 2 9 (by decide) rfl
     ⟨2, 1, [⟨2, 0, false, false⟩, ⟨0, 5, false, false⟩, ⟨1, 7, true, true⟩]⟩
     ⟨1, 7, true, true⟩ (by decide) [] rfl⟩

/-- C3: processing a `Write` completion for `k` removes `k` from the
in-flight set and pops the head of `k`'s waiter queue, a writeback
placeholder.  If a client slot is then at the head, the coordinator responds
to it with `get_untouched(k)` and selects a replacement victim via
`evicting_new()`, enqueueing that victim's writeback — placeholder at the
front of its (existing) queue plus a `Write` request — whenever a victim is
returned; otherwise the queue is empty, `evicting_done(k)` is called and
`k`'s queue is deleted from the map. -/
theorem write_completion_spec (s : BufSt) (k : Nat) (rest : List QSlot)
    (hq : s.queues k = some (QSlot.placeholder :: rest)) :
    (rest = [] →
      ∃ s' effs, Buffer.step s (Event.ioWrite k) = some (s', effs) ∧
        s'.ioKeys = ioRemove s.ioKeys k ∧ k ∉ s'.ioKeys ∧
        s'.queues k = none ∧ s'.cache = s.cache.evictingDone k ∧
        effs = [Effect.popPlaceholder k]) ∧
    (∀ c rest2, rest = QSlot.client c :: rest2 →
      (s.cache.getUntouched k).isSome →
      (∀ cache2, s.cache.evictingNew = (cache2, none) →
        ∃ s' effs, Buffer.step s (Event.ioWrite k) = some (s', effs) ∧
          s'.ioKeys = ioRemove s.ioKeys k ∧ k ∉ s'.ioKeys ∧
          s'.queues k = some rest ∧ s'.cache = cache2 ∧
          effs = [Effect.popPlaceholder k, Effect.respond c k]) ∧
      (∀ cache2 v, s.cache.evictingNew = (cache2, some v) →
        v.key ≠ k →
        ∀ q, s.queues v.key = some q →
        ∃ s' effs, Buffer.step s (Event.ioWrite k) = some (s', effs) ∧
          k ∉ s'.ioKeys ∧
          Effect.respond c k ∈ effs ∧
          s'.queues k = some rest ∧
          s'.queues v.key = some (QSlot.placeholder :: q) ∧
          Effect.writeReq v.key v.value ∈ effs ∧
          v.key ∈ s'.ioKeys)) := by
  constructor
  · rintro rfl
    simp only [Buffer.step, handleIoWrite, hq]
    exact ⟨_, _, rfl, rfl, not_mem_ioRemove _ _, by simp [qdel], rfl, rfl⟩
  · rintro c rest2 rfl hsome
    obtain ⟨e, he⟩ := Option.isSome_iff_exists.mp hsome
    constructor
    · intro cache2 hnew
      simp only [Buffer.step, handleIoWrite, hq, List.head?_cons, he, hnew]
      exact ⟨_, _, rfl, rfl, not_mem_ioRemove _ _, by simp [qset], rfl, rfl⟩
    · intro cache2 v hnew hvk q hvq
      simp only [Buffer.step, handleIoWrite, hq, List.head?_cons, he, hnew, request_eviction]
      have hvq2 : qset s.queues k (QSlot.client c :: rest2) v.key = some q := by
        simp [qset, hvk, hvq]
      rw [hvq2]
      refine ⟨_, _, rfl, ?_, by simp,
        by simp [qset]; exact fun h => hvk h.symm, by simp [qset], by simp, ?_⟩
      · simp [mem_ioInsert, not_mem_ioRemove, Ne.symm hvk]
      · simp [mem_ioInsert]

/-- Witness for C3 at `evictingSt`: the write completion for key 0 pops the
placeholder, finds the queue empty, evicts the entry and deletes the
queue. -/
theorem write_completion_spec_witness :
    evictingSt.queues 0 = some [QSlot.placeholder] ∧
    (∃ s' effs, Buffer.step evictingSt (Event.ioWrite 0) = some (s', effs) ∧
      s'.ioKeys = ioRemove evictingSt.ioKeys 0 ∧ 0 ∉ s'.ioKeys ∧
      s'.queues 0 = none ∧ s'.cache = evictingSt.cache.evictingDone 0 ∧
      effs = [Effect.popPlaceholder 0]) :=
  ⟨rfl, (write_completion_spec evictingSt 0 [] rfl).1 rfl⟩

/-- `write_zeros` produces exactly `size` zero bytes. -/
theorem writeZeros_eq_replicate (s : Nat) : writeZeros s = List.replicate s 0 := by
  induction s using Nat.strong_induction_on with
  | _ s ih =>
    rw [writeZeros]
    split
    · rename_i h
      simp [h]
    · rename_i h
      have hpos : 0 < s := Nat.pos_of_ne_zero h
      have hmin : 0 < min s 4096 := Nat.lt_min.mpr ⟨hpos, by norm_num⟩
      show List.replicate (min s 4096) 0 ++ writeZeros (s - min s 4096) = List.replicate s 0
      rw [ih (s - min s 4096) (Nat.sub_lt hpos hmin)]
      rw [← List.replicate_add]
      rw [Nat.add_sub_cancel' (Nat.min_le_left s 4096)]

/-- C7: `Storage::new(path, n_data)` creates a backing file of exactly
`n_data * 8` zero bytes (`write_zeros` writes exactly `size` zero bytes for
every size), so a `Read(k)` for any `k < n_data` processed before any
`Write(k)` completes with `Ok` and stores the value 0 into the destination
cell. -/
theorem storage_init_zeros (size nData k : Nat) (hk : k < nData) :
    writeZeros size = List.replicate size 0 ∧
    storageRead (Storage.newFile nData) k = some 0 := by
  refine ⟨writeZeros_eq_replicate size, ?_⟩
  unfold storageRead Storage.newFile
  rw [writeZeros_eq_replicate]
  have hlen : k * 8 + 8 ≤ nData * 8 := by omega
  rw [if_pos (by simpa using hlen)]
  rw [List.drop_replicate, List.take_replicate]
  have hmin : min 8 (nData * 8 - k * 8) = 8 := by omega
  rw [hmin]
  rfl

/-- Witness for C7: key 5 of a fresh 10-record file reads back as 0. -/
theorem storage_init_zeros_witness :
    5 < 10 ∧
    (writeZeros 24 = List.replicate 24 0 ∧
     storageRead (Storage.newFile 10) 5 = some 0) :=
  ⟨by decide, storage_init_zeros 24 10 5 (by decide)⟩

/-- The drain loop returns only once the in-flight set is empty. -/
theorem drain_empties_ioKeys (evs : List Event) (s s' : BufSt)
    (h : Buffer.drain s evs = some s') : s'.ioKeys = [] := by
  induction evs generalizing s with
  | nil =>
      unfold Buffer.drain at h
      split at h
      · rename_i he
        cases h
        exact he
      · cases h
  | cons e rest ih =>
      unfold Buffer.drain at h
      split at h
      · rename_i he
        cases h
        exact he
      · split at h
        · rcases hs : Buffer.step s e with _ | ⟨s1, effs1⟩
          · rw [hs] at h; cases h
          · rw [hs] at h; exact ih s1 h
        · cases h

/-- A fold of writes never changes a key that none of the entries carries. -/
theorem fileWrite_skip (l : List CEntry) (f : Nat → Nat) (k : Nat)
    (h : k ∉ l.map CEntry.key) : (l.foldl fileWrite f) k = f k := by
  induction l generalizing f with
  | nil => rfl
  | cons a t ih =>
      simp only [List.map_cons, List.mem_cons] at h
      push_neg at h
      simp only [List.foldl_cons]
      rw [ih _ h.2]
      unfold fileWrite
      split
      · simp [h.1]
      · rfl

/-- After folding the writes of a key-distinct entry list, every dirty entry
reads back its value. -/
theorem fileWrite_hits (l : List CEntry) (f : Nat → Nat)
    (hnd : (l.map CEntry.key).Nodup) :
    ∀ e ∈ l, e.dirty = true → (l.foldl fileWrite f) e.key = e.value := by
  induction l generalizing f with
  | nil => intro e he; cases he
  | cons a t ih =>
      intro e he hd
      simp only [List.map_cons, List.nodup_cons] at hnd
      rcases List.mem_cons.mp he with rfl | het
      · simp only [List.foldl_cons]
        rw [fileWrite_skip t _ e.key hnd.1]
        unfold fileWrite
        rw [if_pos hd]
        simp
      · exact ih _ hnd.2 e het hd

/-- C6: after the client channel closes the coordinator first drains storage
completions until the in-flight set is empty, and only then runs the
write-back phase, which walks the LRU list and issues a `Write` for every
dirty entry, awaiting each completion; when the phase ends every dirty entry
has been written to the backing file (cache keys are distinct by the cache's
own index invariant, taken as a hypothesis here). -/
theorem shutdown_writes_back_dirty (s : BufSt) (evs : List Event) (f : Nat → Nat)
    (s' : BufSt) (f' : Nat → Nat)
    (h : Buffer.shutdownRun s evs f = some (s', f'))
    (hnd : (s'.cache.entries.map CEntry.key).Nodup) :
    s'.ioKeys = [] ∧
    f' = writeBackFile s'.cache f ∧
    ∀ e ∈ s'.cache.entries, e.dirty = true → f' e.key = e.value := by
  unfold Buffer.shutdownRun at h
  rcases hd : Buffer.drain s evs with _ | s1
  · rw [hd] at h; cases h
  · rw [hd] at h
    simp only [Option.some.injEq, Prod.mk.injEq] at h
    obtain ⟨rfl, rfl⟩ := h
    refine ⟨drain_empties_ioKeys evs s s1 hd, rfl, ?_⟩
    intro e he hdirty
    unfold writeBackFile
    have hnd2 : (s1.cache.entries.reverse.map CEntry.key).Nodup := by
      rw [List.map_reverse]
      exact List.nodup_reverse.mpr hnd
    exact fileWrite_hits _ f hnd2 e (List.mem_reverse.mpr he) hdirty

/-- Witness for C6 at `drainedSt`: the write-back phase puts the dirty value
3 at key 0 of the backing file. -/
theorem shutdown_writes_back_dirty_witness :
    (drainedSt.cache.entries.map CEntry.key).Nodup ∧
    (drainedSt.ioKeys = [] ∧
     writeBackFile drainedSt.cache (fun _ => 0) = writeBackFile drainedSt.cache (fun _ => 0) ∧
     ∀ e ∈ drainedSt.cache.entries, e.dirty = true →
       writeBackFile drainedSt.cache (fun _ => 0) e.key = e.value) :=
  ⟨by decide,
   shutdown_writes_back_dirty drainedSt [] (fun _ => 0) drainedSt _ rfl (by decide)⟩

/-- A client slot at the queue front contributes its id to the client list. -/
theorem queueClients_client (c : Nat) (q : List QSlot) :
    queueClients (QSlot.client c :: q) = c :: queueClients q := by
  simp [queueClients]

/-- A placeholder at the queue front contributes nothing to the client list. -/
theorem queueClients_placeholder (q : List QSlot) :
    queueClients (QSlot.placeholder :: q) = queueClients q := by
  simp [queueClients]

/-- The first slot being a client makes it the first listed client. -/
theorem queueClients_head (q : List QSlot) (c : Nat)
    (h : q.head? = some (QSlot.client c)) :
    (queueClients q).head? = some c := by
  cases q with
  | nil => cases h
  | cons a t =>
      simp only [List.head?_cons, Option.some.injEq] at h
      subst h
      simp [queueClients_client]



/-- One coordinator step: each key's queued clients gain this step's lock
arrival at the back and lose this step's popped clients from the front, and
every handle sent goes to the client now at the front of that key's queue. -/
theorem step_fifo (s : BufSt) (e : Event) (s' : BufSt) (effsd : List Effect)
    (h : Buffer.step s e = some (s', effsd)) (k : Nat) :
    (queueClientsOpt (s'.queues k) =
      (queueClientsOpt (s.queues k) ++ arrivals [e] k).drop (clientPops effsd k)) ∧
    (clientPops effsd k + (queueClientsOpt (s'.queues k)).length =
      (queueClientsOpt (s.queues k)).length + (arrivals [e] k).length) ∧
    (∀ c, Effect.respond c k ∈ effsd →
      (queueClientsOpt (s'.queues k)).head? = some c) := by
  cases e with
  | lock k0 c =>
      simp only [Buffer.step, handleLock] at h
      by_cases hemp : ((s.queues k0).getD []).isEmpty = true
      · have hq0 : (s.queues k0).getD [] = [] := List.isEmpty_iff.mp hemp
        rw [if_pos hemp] at h
        rw [hq0] at h
        simp only [List.nil_append] at h
        by_cases hct : s.cache.contains k0 = true
        · rw [if_pos hct] at h
          rcases hgu : (s.cache.touch k0).getUntouched k0 with _ | e0
          · simp only [hgu] at h
            exact Option.noConfusion h
          · simp only [hgu, Option.some.injEq, Prod.mk.injEq] at h
            obtain ⟨h1, h2⟩ := h
            subst h1
            subst h2
            refine ⟨?_, ?_, ?_⟩
            · by_cases hk : k = k0
              · simp [qset, hk, queueClientsOpt, queueClients, arrivals, clientPops, hq0]
              · simp [qset, hk, Ne.symm hk, queueClientsOpt, arrivals, clientPops]
            · by_cases hk : k = k0
              · simp [qset, hk, queueClientsOpt, queueClients, arrivals, clientPops, hq0]
              · simp [qset, hk, Ne.symm hk, queueClientsOpt, arrivals, clientPops]
            · intro c' hc
              simp only [List.mem_singleton, Effect.respond.injEq] at hc
              obtain ⟨hc1, hc2⟩ := hc
              subst hc1
              subst hc2
              simp [qset, queueClientsOpt, queueClients, hq0]
        · rw [if_neg hct] at h
          rcases hge : s.cache.getWithEvicting k0 with ⟨cache2, vopt⟩
          cases vopt with
          | none =>
              simp only [hge, Option.some.injEq, Prod.mk.injEq] at h
              obtain ⟨h1, h2⟩ := h
              subst h1
              subst h2
              refine ⟨?_, ?_, ?_⟩
              · by_cases hk : k = k0
                · simp [qset, hk, queueClientsOpt, queueClients, arrivals, clientPops, hq0]
                · simp [qset, hk, Ne.symm hk, queueClientsOpt, arrivals, clientPops]
              · by_cases hk : k = k0
                · simp [qset, hk, queueClientsOpt, queueClients, arrivals, clientPops, hq0]
                · simp [qset, hk, Ne.symm hk, queueClientsOpt, arrivals, clientPops]
              · intro c' hc
                simp at hc
          | some v =>
              rcases hqv : qset s.queues k0 [QSlot.client c] v.key with _ | q
              · simp only [hge, request_eviction, hqv] at h
                exact Option.noConfusion h
              · simp only [hge, request_eviction, hqv, Option.some.injEq,
                  Prod.mk.injEq] at h
                obtain ⟨h1, h2⟩ := h
                subst h1
                subst h2
                refine ⟨?_, ?_, ?_⟩
                · by_cases hkv : k = v.key
                  · rw [← hkv] at hqv ⊢
                    by_cases hkk : k = k0
                    · subst hkk
                      simp [qset] at hqv
                      subst hqv
                      simp [qset, queueClientsOpt, queueClients, arrivals, clientPops, hq0]
                    · simp only [qset, if_neg hkk] at hqv
                      simp [qset, hkk, Ne.symm hkk, queueClientsOpt, queueClients,
                        arrivals, clientPops, hqv]
                  · by_cases hkk : k = k0
                    · subst hkk
                      simp [qset, hkv, queueClientsOpt, queueClients, arrivals,
                        clientPops, hq0]
                    · simp [qset, hkv, hkk, Ne.symm hkk, queueClientsOpt, arrivals,
                        clientPops]
                · by_cases hkv : k = v.key
                  · rw [← hkv] at hqv ⊢
                    by_cases hkk : k = k0
                    · subst hkk
                      simp [qset] at hqv
                      subst hqv
                      simp [qset, queueClientsOpt, queueClients, arrivals, clientPops, hq0]
                    · simp only [qset, if_neg hkk] at hqv
                      simp [qset, hkk, Ne.symm hkk, queueClientsOpt, queueClients,
                        arrivals, clientPops, hqv]
                  · by_cases hkk : k = k0
                    · subst hkk
                      simp [qset, hkv, queueClientsOpt, queueClients, arrivals,
                        clientPops, hq0]
                    · simp [qset, hkv, hkk, Ne.symm hkk, queueClientsOpt, arrivals,
                        clientPops]
                · intro c' hc
                  simp at hc
      · rw [if_neg hemp] at h
        simp only [Option.some.injEq, Prod.mk.injEq] at h
        obtain ⟨h1, h2⟩ := h
        subst h1
        subst h2
        refine ⟨?_, ?_, ?_⟩
        · by_cases hk : k = k0
          · simp [qset, hk, queueClientsOpt, queueClients, arrivals, clientPops]
          · simp [qset, hk, Ne.symm hk, queueClientsOpt, arrivals, clientPops]
        · by_cases hk : k = k0
          · simp [qset, hk, queueClientsOpt, queueClients, arrivals, clientPops]
          · simp [qset, hk, Ne.symm hk, queueClientsOpt, arrivals, clientPops]
        · intro c' hc
          simp at hc
  | unlock k0 =>
      rcases hq : s.queues k0 with _ | q
      · simp only [Buffer.step, handleUnlock, hq] at h
        exact Option.noConfusion h
      · cases q with
        | nil =>
            simp only [Buffer.step, handleUnlock, hq] at h
            exact Option.noConfusion h
        | cons sl rest =>
            rcases hh : rest.head? with _ | sl2
            · simp only [Buffer.step, handleUnlock, hq, hh, Option.some.injEq,
                Prod.mk.injEq] at h
              obtain ⟨h1, h2⟩ := h
              subst h1
              subst h2
              have hrest : rest = [] := List.head?_eq_none_iff.mp hh
              subst hrest
              refine ⟨?_, ?_, ?_⟩
              · by_cases hk : k = k0
                · cases sl <;>
                    simp [qset, hk, queueClientsOpt, queueClients, arrivals,
                      clientPops, hq, Nat.add_comm]
                · cases sl <;>
                    simp [qset, hk, Ne.symm hk, queueClientsOpt, arrivals, clientPops]
              · by_cases hk : k = k0
                · cases sl <;>
                    simp [qset, hk, queueClientsOpt, queueClients, arrivals,
                      clientPops, hq, Nat.add_comm]
                · cases sl <;>
                    simp [qset, hk, Ne.symm hk, queueClientsOpt, arrivals, clientPops]
              · intro c' hc
                cases sl <;> simp [clientPops] at hc
            · cases sl2 with
              | placeholder =>
                  simp only [Buffer.step, handleUnlock, hq, hh, Option.some.injEq,
                    Prod.mk.injEq] at h
                  obtain ⟨h1, h2⟩ := h
                  subst h1
                  subst h2
                  refine ⟨?_, ?_, ?_⟩
                  · by_cases hk : k = k0
                    · cases sl <;>
                        simp [qset, hk, queueClientsOpt, queueClients, arrivals,
                          clientPops, hq, Nat.add_comm]
                    · cases sl <;>
                        simp [qset, hk, Ne.symm hk, queueClientsOpt, arrivals,
                          clientPops]
                  · by_cases hk : k = k0
                    · cases sl <;>
                        simp [qset, hk, queueClientsOpt, queueClients, arrivals,
                          clientPops, hq, Nat.add_comm]
                    · cases sl <;>
                        simp [qset, hk, Ne.symm hk, queueClientsOpt, arrivals,
                          clientPops]
                  · intro c' hc
                    cases sl <;> simp [clientPops] at hc
              | client c1 =>
                  rcases hgu : s.cache.getUntouched k0 with _ | e0
                  · simp only [Buffer.step, handleUnlock, hq, hh, hgu] at h
                    exact Option.noConfusion h
                  · simp only [Buffer.step, handleUnlock, hq, hh, hgu,
                      Option.some.injEq, Prod.mk.injEq] at h
                    obtain ⟨h1, h2⟩ := h
                    subst h1
                    subst h2
                    refine ⟨?_, ?_, ?_⟩
                    · by_cases hk : k = k0
                      · cases sl <;>
                          simp [qset, hk, queueClientsOpt, queueClients, arrivals,
                            clientPops, hq, Nat.add_comm]
                      · cases sl <;>
                          simp [qset, hk, Ne.symm hk, queueClientsOpt, arrivals,
                            clientPops]
                    · by_cases hk : k = k0
                      · cases sl <;>
                          simp [qset, hk, queueClientsOpt, queueClients, arrivals,
                            clientPops, hq, Nat.add_comm]
                      · cases sl <;>
                          simp [qset, hk, Ne.symm hk, queueClientsOpt, arrivals,
                            clientPops]
                    · intro c' hc
                      have hmem : Effect.respond c' k = Effect.respond c1 k0 := by
                        cases sl <;> simpa using hc
                      injection hmem with hm1 hm2
                      subst hm2
                      rw [hm1]
                      simp only [qset, queueClientsOpt, if_pos rfl, Option.getD_some]
                      exact queueClients_head rest c1 hh
  | ioRead k0 =>
      rcases hq : s.queues k0 with _ | q
      · simp only [Buffer.step, handleIoRead, hq] at h
        exact Option.noConfusion h
      · rcases hh : q.head? with _ | sl
        · simp only [Buffer.step, handleIoRead, hq, hh] at h
          exact Option.noConfusion h
        · cases sl with
          | placeholder =>
              simp only [Buffer.step, handleIoRead, hq, hh] at h
              exact Option.noConfusion h
          | client c0 =>
              rcases hgu : s.cache.getUntouched k0 with _ | e0
              · simp only [Buffer.step, handleIoRead, hq, hh, hgu] at h
                exact Option.noConfusion h
              · simp only [Buffer.step, handleIoRead, hq, hh, hgu, Option.some.injEq,
                  Prod.mk.injEq] at h
                obtain ⟨h1, h2⟩ := h
                subst h1
                subst h2
                refine ⟨?_, ?_, ?_⟩
                · simp [queueClientsOpt, arrivals, clientPops]
                · simp [queueClientsOpt, arrivals, clientPops]
                · intro c' hc
                  simp only [List.mem_singleton, Effect.respond.injEq] at hc
                  obtain ⟨hc1, hc2⟩ := hc
                  subst hc2
                  rw [hc1]
                  simp only [queueClientsOpt, hq, Option.getD_some]
                  exact queueClients_head q c0 hh
  | ioWrite k0 =>
      rcases hq : s.queues k0 with _ | q
      · simp only [Buffer.step, handleIoWrite, hq] at h
        exact Option.noConfusion h
      · cases q with
        | nil =>
            simp only [Buffer.step, handleIoWrite, hq] at h
            exact Option.noConfusion h
        | cons sl rest =>
            rcases hh : rest.head? with _ | sl2
            · simp only [Buffer.step, handleIoWrite, hq, hh, Option.some.injEq,
                Prod.mk.injEq] at h
              obtain ⟨h1, h2⟩ := h
              subst h1
              subst h2
              have hrest : rest = [] := List.head?_eq_none_iff.mp hh
              subst hrest
              refine ⟨?_, ?_, ?_⟩
              · by_cases hk : k = k0
                · cases sl <;>
                    simp [qdel, qset, hk, queueClientsOpt, queueClients, arrivals,
                      clientPops, hq, Nat.add_comm]
                · cases sl <;>
                    simp [qdel, qset, hk, Ne.symm hk, queueClientsOpt, arrivals,
                      clientPops]
              · by_cases hk : k = k0
                · cases sl <;>
                    simp [qdel, qset, hk, queueClientsOpt, queueClients, arrivals,
                      clientPops, hq, Nat.add_comm]
                · cases sl <;>
                    simp [qdel, qset, hk, Ne.symm hk, queueClientsOpt, arrivals,
                      clientPops]
              · intro c' hc
                cases sl <;> simp [clientPops] at hc
            · cases sl2 with
              | placeholder =>
                  simp only [Buffer.step, handleIoWrite, hq, hh] at h
                  exact Option.noConfusion h
              | client c1 =>
                  rcases hgu : s.cache.getUntouched k0 with _ | e0
                  · simp only [Buffer.step, handleIoWrite, hq, hh, hgu] at h
                    exact Option.noConfusion h
                  · rcases hen : s.cache.evictingNew with ⟨cache2, vopt⟩
                    cases vopt with
                    | none =>
                        simp only [Buffer.step, handleIoWrite, hq, hh, hgu, hen,
                          Option.some.injEq, Prod.mk.injEq] at h
                        obtain ⟨h1, h2⟩ := h
                        subst h1
                        subst h2
                        refine ⟨?_, ?_, ?_⟩
                        · by_cases hk : k = k0
                          · cases sl <;>
                              simp [qset, hk, queueClientsOpt, queueClients, arrivals,
                                clientPops, hq, Nat.add_comm]
                          · cases sl <;>
                              simp [qset, hk, Ne.symm hk, queueClientsOpt, arrivals,
                                clientPops]
                        · by_cases hk : k = k0
                          · cases sl <;>
                              simp [qset, hk, queueClientsOpt, queueClients, arrivals,
                                clientPops, hq, Nat.add_comm]
                          · cases sl <;>
                              simp [qset, hk, Ne.symm hk, queueClientsOpt, arrivals,
                                clientPops]
                        · intro c' hc
                          have hmem : Effect.respond c' k = Effect.respond c1 k0 := by
                            cases sl <;> simpa using hc
                          injection hmem with hm1 hm2
                          subst hm2
                          rw [hm1]
                          simp only [qset, queueClientsOpt, if_pos rfl, Option.getD_some]
                          exact queueClients_head rest c1 hh
                    | some v =>
                        rcases hqv : qset s.queues k0 rest v.key with _ | q2
                        · simp only [Buffer.step, handleIoWrite, hq, hh, hgu, hen,
                            request_eviction, hqv] at h
                          exact Option.noConfusion h
                        · simp only [Buffer.step, handleIoWrite, hq, hh, hgu, hen,
                            request_eviction, hqv, Option.some.injEq,
                            Prod.mk.injEq] at h
                          obtain ⟨h1, h2⟩ := h
                          subst h1
                          subst h2
                          refine ⟨?_, ?_, ?_⟩
                          · by_cases hkv : k = v.key
                            · rw [← hkv] at hqv ⊢
                              by_cases hkk : k = k0
                              · subst hkk
                                simp [qset] at hqv
                                subst hqv
                                cases sl <;>
                                  simp [qset, queueClientsOpt, queueClients, arrivals,
                                    clientPops, hq, Nat.add_comm]
                              · simp only [qset, if_neg hkk] at hqv
                                cases sl <;>
                                  simp [qset, hkk, Ne.symm hkk, queueClientsOpt,
                                    queueClients, arrivals, clientPops, hqv]
                            · by_cases hkk : k = k0
                              · subst hkk
                                cases sl <;>
                                  simp [qset, hkv, queueClientsOpt, queueClients,
                                    arrivals, clientPops, hq, Nat.add_comm]
                              · cases sl <;>
                                  simp [qset, hkv, hkk, Ne.symm hkk, queueClientsOpt,
                                    arrivals, clientPops]
                          · by_cases hkv : k = v.key
                            · rw [← hkv] at hqv ⊢
                              by_cases hkk : k = k0
                              · subst hkk
                                simp [qset] at hqv
                                subst hqv
                                cases sl <;>
                                  simp [qset, queueClientsOpt, queueClients, arrivals,
                                    clientPops, hq, Nat.add_comm]
                              · simp only [qset, if_neg hkk] at hqv
                                cases sl <;>
                                  simp [qset, hkk, Ne.symm hkk, queueClientsOpt,
                                    queueClients, arrivals, clientPops, hqv]
                            · by_cases hkk : k = k0
                              · subst hkk
                                cases sl <;>
                                  simp [qset, hkv, queueClientsOpt, queueClients,
                                    arrivals, clientPops, hq, Nat.add_comm]
                              · cases sl <;>
                                  simp [qset, hkv, hkk, Ne.symm hkk, queueClientsOpt,
                                    arrivals, clientPops]
                          · intro c' hc
                            have hmem : Effect.respond c' k = Effect.respond c1 k0 := by
                              cases sl <;> simpa using hc
                            injection hmem with hm1 hm2
                            subst hm2
                            rw [hm1]
                            by_cases hkv : k = v.key
                            · rw [← hkv] at hqv ⊢
                              simp [qset] at hqv
                              subst hqv
                              simp only [qset, queueClientsOpt, if_pos rfl,
                                Option.getD_some, queueClients_placeholder]
                              exact queueClients_head rest c1 hh
                            · simp only [qset, queueClientsOpt,
                                if_neg (fun hx => hkv hx), if_pos rfl,
                                Option.getD_some]
                              exact queueClients_head rest c1 hh

/-- Lock arrivals split over trace concatenation. -/
theorem arrivals_append (l1 l2 : List Event) (k : Nat) :
    arrivals (l1 ++ l2) k = arrivals l1 k ++ arrivals l2 k := by
  simp [arrivals]

/-- Client pops split over effect-list concatenation. -/
theorem clientPops_append (l1 l2 : List Effect) (k : Nat) :
    clientPops (l1 ++ l2) k = clientPops l1 k + clientPops l2 k := by
  simp [clientPops, List.countP_append]

/-- Composing two front drops across an append. -/
theorem drop_drop_append {α : Type} (A B : List α) (p1 p2 : Nat) (h : p1 ≤ A.length) :
    (A.drop p1 ++ B).drop p2 = (A ++ B).drop (p1 + p2) := by
  have h1 : (A ++ B).drop (p1 + p2) = ((A ++ B).drop p1).drop p2 := by
    rw [List.drop_drop, Nat.add_comm]
  have h2 : (A ++ B).drop p1 = A.drop p1 ++ B := by
    rw [List.drop_append_eq_append_drop]
    have : p1 - A.length = 0 := by omega
    rw [this, List.drop_zero]
  rw [h1, h2]

/-- Run invariant: after any panic-free run, each key's queued clients are
the lock arrivals for that key minus the clients already popped from the
front, in arrival order. -/
theorem run_fifo_inv (evs : List Event) (s0 s : BufSt) (effs : List Effect)
    (h : Buffer.run s0 evs = some (s, effs)) (k : Nat) :
    queueClientsOpt (s.queues k) =
      (queueClientsOpt (s0.queues k) ++ arrivals evs k).drop (clientPops effs k) ∧
    clientPops effs k + (queueClientsOpt (s.queues k)).length =
      (queueClientsOpt (s0.queues k)).length + (arrivals evs k).length := by
  induction evs generalizing s0 effs with
  | nil =>
      simp only [Buffer.run, Option.some.injEq, Prod.mk.injEq] at h
      obtain ⟨h1, h2⟩ := h
      subst h1
      subst h2
      simp [arrivals, clientPops]
  | cons e rest ih =>
      rcases hs : Buffer.step s0 e with _ | ⟨s1, effs1⟩
      · simp only [Buffer.run, hs] at h
        exact Option.noConfusion h
      · rcases hr : Buffer.run s1 rest with _ | ⟨s2, effs2⟩
        · simp only [Buffer.run, hs, hr] at h
          exact Option.noConfusion h
        · simp only [Buffer.run, hs, hr, Option.some.injEq, Prod.mk.injEq] at h
          obtain ⟨h1, h2⟩ := h
          subst h1
          subst h2
          obtain ⟨hst1, hst2, _⟩ := step_fifo s0 e s1 effs1 hs k
          obtain ⟨hrn1, hrn2⟩ := ih s1 effs2 hr
          have hle : clientPops effs1 k ≤
              (queueClientsOpt (s0.queues k) ++ arrivals [e] k).length := by
            rw [List.length_append]
            omega
          have hsplit : arrivals (e :: rest) k = arrivals [e] k ++ arrivals rest k :=
            arrivals_append [e] rest k
          constructor
          · rw [clientPops_append, hsplit, hrn1, hst1]
            rw [drop_drop_append _ _ _ _ hle]
            rw [List.append_assoc]
          · rw [clientPops_append, hsplit]
            simp only [List.length_append] at hst2 hrn2 ⊢
            omega

/-- C2 amended: per key, the clients in the waiter queue are exactly the
not-yet-popped `Lock(k)` requesters in processing order (writeback
placeholders never reorder them), and any handle the next step sends for `k`
goes to the earliest not-yet-popped requester.  The literal claim — grant
sequence equals lock-processing sequence — fails only in that one requester
can be granted twice (see the counterexample). -/
theorem grants_follow_queue_fifo (C T : Nat) (evs : List Event) (s : BufSt)
    (effs : List Effect)
    (h : Buffer.run (Buffer.init C T) evs = some (s, effs)) (k : Nat) :
    queueClientsOpt (s.queues k) = (arrivals evs k).drop (clientPops effs k) ∧
    clientPops effs k + (queueClientsOpt (s.queues k)).length = (arrivals evs k).length ∧
    (∀ e s' effsd, Buffer.step s e = some (s', effsd) →
      ∀ c, Effect.respond c k ∈ effsd →
        ((arrivals (evs ++ [e]) k).drop (clientPops (effs ++ effsd) k)).head? = some c) := by
  obtain ⟨hinv1, hinv2⟩ := run_fifo_inv evs (Buffer.init C T) s effs h k
  have hq0 : queueClientsOpt ((Buffer.init C T).queues k) = [] := rfl
  rw [hq0, List.nil_append] at hinv1
  rw [hq0] at hinv2
  simp only [List.length_nil, Nat.zero_add] at hinv2
  refine ⟨hinv1, hinv2, ?_⟩
  intro e s' effsd hstep c hmem
  obtain ⟨hst1, hst2, hst3⟩ := step_fifo s e s' effsd hstep k
  have hle : clientPops effs k ≤ (arrivals evs k).length := by omega
  have hd : (arrivals (evs ++ [e]) k).drop (clientPops (effs ++ effsd) k) =
      queueClientsOpt (s'.queues k) := by
    rw [arrivals_append, clientPops_append, hst1, hinv1]
    exact (drop_drop_append _ _ _ _ hle).symm
  rw [hd]
  exact hst3 c hmem

/-- Witness for C2 amended on a concrete two-event trace. -/
theorem grants_follow_queue_fifo_witness :
    (Buffer.run (Buffer.init 2 1) fifoWitnessTrace).elim False
      (fun p => queueClientsOpt (p.1.queues 0) =
          (arrivals fifoWitnessTrace 0).drop (clientPops p.2 0)) := by
  rcases hr : Buffer.run (Buffer.init 2 1) fifoWitnessTrace with _ | p
  · have hsome : (Buffer.run (Buffer.init 2 1) fifoWitnessTrace).isSome = true := by decide
    rw [hr] at hsome
    simp at hsome
  · exact (grants_follow_queue_fifo 2 1 fifoWitnessTrace p.1 p.2 (by rw [hr]) 0).1

/-- `List.set` then `getD` at the same index. -/
theorem getD_set_self {α : Type} (l : List α) (i : Nat) (a d : α) (h : i < l.length) :
    (l.set i a).getD i d = a := by
  induction l generalizing i with
  | nil => simp at h
  | cons x t ih =>
      cases i with
      | zero => rfl
      | succ n =>
          simp only [List.set_cons_succ, List.getD_cons_succ]
          exact ih n (by simpa using h)

/-- `List.set` leaves `getD` at other indices unchanged. -/
theorem getD_set_ne {α : Type} (l : List α) (i j : Nat) (a d : α) (h : i ≠ j) :
    (l.set i a).getD j d = l.getD j d := by
  induction l generalizing i j with
  | nil => simp [List.set]
  | cons x t ih =>
      cases i with
      | zero =>
          cases j with
          | zero => exact absurd rfl h
          | succ m => rfl
      | succ n =>
          cases j with
          | zero => rfl
          | succ m =>
              simp only [List.set_cons_succ, List.getD_cons_succ]
              exact ih n m (by omega)

/-- `getD` on an append, inside the left part. -/
theorem getD_append_left {α : Type} (l1 l2 : List α) (j : Nat) (d : α)
    (h : j < l1.length) : (l1 ++ l2).getD j d = l1.getD j d := by
  induction l1 generalizing j with
  | nil => simp at h
  | cons x t ih =>
      cases j with
      | zero => rfl
      | succ n =>
          simp only [List.cons_append, List.getD_cons_succ]
          exact ih n (by simpa using h)

/-- `getD` on an append, at the first appended slot. -/
theorem getD_append_self {α : Type} (l1 l2 : List α) (x : α) (d : α) :
    (l1 ++ x :: l2).getD l1.length d = x := by
  induction l1 with
  | nil => rfl
  | cons y t ih => simpa using ih

/-- A lookup misses exactly when the key is absent. -/
theorem hmLookup_eq_none_iff (m : List (Nat × Nat)) (k : Nat) :
    hmLookup m k = none ↔ k ∉ m.map Prod.fst := by
  induction m with
  | nil => simp [hmLookup]
  | cons p rest ih =>
      by_cases hp : p.1 = k
      · simp [hmLookup, hp]
      · simp [hmLookup, hp, ih, Ne.symm hp]

/-- Lookup after insert at the inserted key. -/
theorem hmLookup_hmInsert_self (m : List (Nat × Nat)) (k v : Nat) :
    hmLookup (hmInsert m k v) k = some v := by
  induction m with
  | nil => simp [hmInsert, hmLookup]
  | cons p rest ih =>
      by_cases hp : p.1 = k
      · simp [hmInsert, hp, hmLookup]
      · simp [hmInsert, hp, hmLookup, ih]

/-- Insert leaves other keys' lookups unchanged. -/
theorem hmLookup_hmInsert_ne (m : List (Nat × Nat)) (k v k' : Nat) (h : k' ≠ k) :
    hmLookup (hmInsert m k v) k' = hmLookup m k' := by
  induction m with
  | nil => simp [hmInsert, hmLookup, Ne.symm h]
  | cons p rest ih =>
      by_cases hp : p.1 = k
      · have hp' : ¬p.1 = k' := by omega
        simp [hmInsert, hmLookup, hp, hp', Ne.symm h]
      · by_cases hp' : p.1 = k'
        · simp only [hmInsert, if_neg hp, hmLookup, if_pos hp']
        · simp only [hmInsert, if_neg hp, hmLookup, if_neg hp', ih]

/-- Key membership after an insert. -/
theorem hmInsert_mem_fst (m : List (Nat × Nat)) (k v x : Nat) :
    x ∈ (hmInsert m k v).map Prod.fst ↔ x = k ∨ x ∈ m.map Prod.fst := by
  induction m with
  | nil => simp [hmInsert]
  | cons p rest ih =>
      by_cases hp : p.1 = k
      · simp only [hmInsert, if_pos hp, List.map_cons, List.mem_cons]
        rw [hp]
        tauto
      · simp only [hmInsert, if_neg hp, List.map_cons, List.mem_cons, ih]
        tauto

/-- Insert keeps the key list duplicate-free. -/
theorem hmInsert_fst_nodup (m : List (Nat × Nat)) (k v : Nat)
    (h : (m.map Prod.fst).Nodup) : ((hmInsert m k v).map Prod.fst).Nodup := by
  induction m with
  | nil => simp [hmInsert]
  | cons p rest ih =>
      simp only [List.map_cons, List.nodup_cons] at h
      by_cases hp : p.1 = k
      · simp only [hmInsert, if_pos hp, List.map_cons, List.nodup_cons]
        exact ⟨hp ▸ h.1, h.2⟩
      · simp only [hmInsert, if_neg hp, List.map_cons, List.nodup_cons]
        refine ⟨?_, ih h.2⟩
        simp only [hmInsert_mem_fst]
        push_neg
        exact ⟨hp, h.1⟩

/-- Inserting an absent key grows the map by one. -/
theorem hmInsert_length (m : List (Nat × Nat)) (k v : Nat)
    (h : hmLookup m k = none) : (hmInsert m k v).length = m.length + 1 := by
  induction m with
  | nil => rfl
  | cons p rest ih =>
      simp only [hmLookup] at h
      by_cases hp : p.1 = k
      · rw [if_pos hp] at h
        cases h
      · rw [if_neg hp] at h
        simp only [hmInsert, if_neg hp, List.length_cons, ih h]

/-- Lookup after erase at the erased key. -/
theorem hmLookup_hmErase_self (m : List (Nat × Nat)) (k : Nat)
    (h : (m.map Prod.fst).Nodup) : hmLookup (hmErase m k) k = none := by
  induction m with
  | nil => rfl
  | cons p rest ih =>
      simp only [List.map_cons, List.nodup_cons] at h
      by_cases hp : p.1 = k
      · simp only [hmErase, if_pos hp]
        rw [hmLookup_eq_none_iff]
        exact hp ▸ h.1
      · simp only [hmErase, if_neg hp, hmLookup, if_neg hp]
        exact ih h.2

/-- Erase leaves other keys' lookups unchanged. -/
theorem hmLookup_hmErase_ne (m : List (Nat × Nat)) (k k' : Nat) (h : k' ≠ k) :
    hmLookup (hmErase m k) k' = hmLookup m k' := by
  induction m with
  | nil => rfl
  | cons p rest ih =>
      by_cases hp : p.1 = k
      · have hp' : ¬p.1 = k' := by omega
        simp only [hmErase, if_pos hp, hmLookup, if_neg hp']
      · by_cases hp' : p.1 = k'
        · simp only [hmErase, if_neg hp, hmLookup, if_pos hp']
        · simp only [hmErase, if_neg hp, hmLookup, if_neg hp', ih]

/-- Erase only removes keys. -/
theorem hmErase_fst_sublist (m : List (Nat × Nat)) (k : Nat) :
    ((hmErase m k).map Prod.fst).Sublist (m.map Prod.fst) := by
  induction m with
  | nil => simp [hmErase]
  | cons p rest ih =>
      by_cases hp : p.1 = k
      · simp only [hmErase, if_pos hp, List.map_cons]
        exact (List.sublist_cons_self _ _)
      · simp only [hmErase, if_neg hp, List.map_cons]
        exact ih.cons₂ p.1

/-- Erase keeps the key list duplicate-free. -/
theorem hmErase_fst_nodup (m : List (Nat × Nat)) (k : Nat)
    (h : (m.map Prod.fst).Nodup) : ((hmErase m k).map Prod.fst).Nodup :=
  (hmErase_fst_sublist m k).nodup h

/-- Erasing a present key shrinks the map by one. -/
theorem hmErase_length (m : List (Nat × Nat)) (k v : Nat)
    (h : hmLookup m k = some v) : (hmErase m k).length + 1 = m.length := by
  induction m with
  | nil => cases h
  | cons p rest ih =>
      simp only [hmLookup] at h
      by_cases hp : p.1 = k
      · simp only [hmErase, if_pos hp, List.length_cons]
      · rw [if_neg hp] at h
        simp only [hmErase, if_neg hp, List.length_cons, ih h]

/-- A lookup hits exactly when the key is present. -/
theorem hmLookup_isSome_iff (m : List (Nat × Nat)) (k : Nat) :
    (hmLookup m k).isSome = true ↔ k ∈ m.map Prod.fst := by
  induction m with
  | nil => simp [hmLookup]
  | cons p rest ih =>
      by_cases hp : p.1 = k
      · simp [hmLookup, hp]
      · simp [hmLookup, hp, ih, Ne.symm hp]

/-- In a functional map, membership determines the lookup. -/
theorem hmLookup_of_mem (m : List (Nat × Nat)) (k i : Nat)
    (hnd : (m.map Prod.fst).Nodup) (h : (k, i) ∈ m) : hmLookup m k = some i := by
  induction m with
  | nil => cases h
  | cons p rest ih =>
      simp only [List.map_cons, List.nodup_cons] at hnd
      rcases List.mem_cons.mp h with rfl | hmem
      · simp [hmLookup]
      · by_cases hp : p.1 = k
        · exfalso
          apply hnd.1
          rw [hp]
          exact List.mem_map.mpr ⟨(k, i), hmem, rfl⟩
        · simp only [hmLookup, if_neg hp]
          exact ih hnd.2 hmem

/-- A successful lookup comes from a map entry. -/
theorem hmLookup_mem (m : List (Nat × Nat)) (k i : Nat)
    (h : hmLookup m k = some i) : (k, i) ∈ m := by
  induction m with
  | nil => cases h
  | cons p rest ih =>
      simp only [hmLookup] at h
      by_cases hp : p.1 = k
      · rw [if_pos hp] at h
        injection h with h2
        have hpair : p = (k, i) := Prod.ext hp h2
        rw [hpair]
        exact List.mem_cons_self _ _
      · rw [if_neg hp] at h
        exact List.mem_cons_of_mem _ (ih h)

/-- Weaken a chain pointwise over its members. -/
theorem chain'_mono_mem {R S : Nat → Nat → Prop} (os : List Nat)
    (h : List.Chain' R os) (himp : ∀ x ∈ os, ∀ y ∈ os, R x y → S x y) :
    List.Chain' S os := by
  induction os with
  | nil => simp
  | cons a t ih =>
      cases t with
      | nil => simp
      | cons b t2 =>
          rw [List.chain'_cons] at h ⊢
          refine ⟨himp a (by simp) b (by simp) h.1, ih h.2 ?_⟩
          intro x hx y hy hr
          exact himp x (List.mem_cons_of_mem _ hx) y (List.mem_cons_of_mem _ hy) hr

/-- `linkedFrom` only inspects the links at the listed slots. -/
theorem linkedFrom_congr (l l' : LruLane) (p : Option Nat) (os : List Nat)
    (h : linkedFrom l p os)
    (hprev : ∀ i ∈ os, prevAt l' i = prevAt l i)
    (hnext : ∀ i ∈ os, nextAt l' i = nextAt l i) : linkedFrom l' p os := by
  obtain ⟨hhead, hchain⟩ := h
  constructor
  · intro hd hh
    have hmem : hd ∈ os := by
      cases os with
      | nil => cases hh
      | cons a t => exact List.mem_cons.mpr (Or.inl (by simpa using hh : a = hd).symm)
    rw [hprev hd hmem]
    exact hhead hd hh
  · apply chain'_mono_mem os hchain
    intro x hx y hy hr
    rw [hnext x hx, hprev y hy]
    exact hr

/-- The traversal from no slot is empty. -/
theorem travGo_none (l : LruLane) (n : Nat) : travGo l n none = [] := by
  cases n <;> rfl

/-- Split a linked list at its last slot. -/
theorem linkedFrom_concat (l : LruLane) (p : Option Nat) (os : List Nat) (t : Nat)
    (h : linkedFrom l p (os ++ [t])) :
    linkedFrom l p os ∧
    (os = [] → prevAt l t = p) ∧
    (∀ u, os.getLast? = some u → prevAt l t = some u ∧ nextAt l u = some t) := by
  obtain ⟨hhead, hchain⟩ := h
  rw [List.chain'_append] at hchain
  obtain ⟨hc1, _, hc3⟩ := hchain
  refine ⟨⟨?_, hc1⟩, ?_, ?_⟩
  · intro hd hh
    apply hhead
    cases os with
    | nil => cases hh
    | cons a os2 => simpa using hh
  · intro hos
    subst hos
    exact hhead t rfl
  · intro u hu
    have hr := hc3 u (Option.mem_def.mpr hu) t (by simp)
    exact ⟨hr.2, hr.1⟩

/-- On a correctly linked list the `prev`-walk from the last slot
visits exactly the list, reversed. -/
theorem travGo_linked (l : LruLane) (os : List Nat) (h : linkedFrom l none os) :
    ∀ n, os.length ≤ n → travGo l n os.getLast? = os.reverse := by
  induction os using List.reverseRecOn with
  | nil =>
      intro n _
      simp [travGo_none]
  | append_singleton os' t ih =>
      intro n hn
      rw [List.getLast?_concat]
      cases n with
      | zero => simp at hn
      | succ m =>
          obtain ⟨h1, h2, h3⟩ := linkedFrom_concat l none os' t h
          show t :: travGo l m (prevAt l t) = (os' ++ [t]).reverse
          rcases hlast : os'.getLast? with _ | u
          · have hos' : os' = [] := by
              cases os' with
              | nil => rfl
              | cons a t2 => simp [List.getLast?_concat] at hlast
            subst hos'
            rw [h2 rfl, travGo_none]
            simp
          · rw [(h3 u hlast).1]
            have hm : os'.length ≤ m := by
              simp only [List.length_append, List.length_singleton] at hn
              omega
            rw [← hlast, ih h1 m hm]
            simp

/-- Weaken a chain using only adjacent-position membership. -/
theorem chain'_mono_adj {R S : Nat → Nat → Prop} (os : List Nat)
    (h : List.Chain' R os)
    (himp : ∀ x ∈ os.dropLast, ∀ y ∈ os.tail, R x y → S x y) :
    List.Chain' S os := by
  induction os with
  | nil => simp
  | cons a t ih =>
      cases t with
      | nil => simp
      | cons b t2 =>
          rw [List.chain'_cons] at h ⊢
          refine ⟨himp a (by simp) b (by simp) h.1, ih h.2 ?_⟩
          intro x hx y hy hr
          refine himp x ?_ y (List.mem_cons_of_mem _ hy) hr
          simp only [List.dropLast_cons₂, List.mem_cons]
          right
          exact hx

/-- Every non-final member of a chain has a successor. -/
theorem chain'_succ {R : Nat → Nat → Prop} (os : List Nat)
    (h : List.Chain' R os) (i : Nat) (hi : i ∈ os) (hlast : os.getLast? ≠ some i) :
    ∃ j, R i j ∧ j ∈ os := by
  induction os with
  | nil => cases hi
  | cons a t ih =>
      cases t with
      | nil =>
          rcases List.mem_singleton.mp hi with rfl
          exact absurd rfl hlast
      | cons b t2 =>
          rw [List.chain'_cons] at h
          rcases List.mem_cons.mp hi with rfl | hi2
          · exact ⟨b, h.1, by simp⟩
          · have hlast2 : (b :: t2).getLast? ≠ some i := by
              rw [List.getLast?_cons_cons] at hlast
              exact hlast
            obtain ⟨j, hj1, hj2⟩ := ih h.2 hi2 hlast2
            exact ⟨j, hj1, List.mem_cons_of_mem _ hj2⟩


/-- Evaluation of `push_front` on a nonempty lane. -/
theorem pushFront_eval (l : LruLane) (i h0 : Nat) (ht : ¬l.tail = none)
    (hh : l.head = some h0)
    (e : LruEntry) (hei : l.entries[i]? = some e)
    (ea : LruEntry)
    (hea : (l.entries.set i { e with next := some h0, prev := none })[h0]? = some ea) :
    l.pushFront i = some { l with
      entries := (l.entries.set i { e with next := some h0, prev := none }).set h0
        { ea with prev := some i },
      head := some i } := by
  unfold LruLane.pushFront
  rw [if_neg ht]
  simp only [Option.bind_eq_bind, hei, Option.some_bind, hh, hea, Option.pure_def]

/-- Evaluation of `push_front` on an empty lane. -/
theorem pushFront_eval_empty (l : LruLane) (i : Nat) (ht : l.tail = none) :
    l.pushFront i = some { l with tail := some i, head := some i } := by
  unfold LruLane.pushFront
  rw [if_pos ht]
  rfl

/-- Evaluation of `pop_back`: only the tail pointer moves. -/
theorem popBack_eval (l : LruLane) (t : Nat) (ht : l.tail = some t)
    (e : LruEntry) (het : l.entries[t]? = some e) :
    l.popBack = some ({ l with tail := e.prev }, t) := by
  unfold LruLane.popBack
  simp only [Option.bind_eq_bind, ht, Option.some_bind, het, Option.pure_def]

/-- Evaluation of `unlink` at the tail slot. -/
theorem unlink_eval_tail (l : LruLane) (i h0 : Nat) (e : LruEntry)
    (hei : l.entries[i]? = some e) (hh : l.head = some h0) (hih : ¬i = h0)
    (p : Nat) (hp : e.prev = some p) (pe : LruEntry) (hpe : l.entries[p]? = some pe)
    (ht : l.tail = some i) :
    l.unlink i = some { l with
      entries := l.entries.set p { pe with next := e.next }, tail := some p } := by
  unfold LruLane.unlink
  simp only [Option.bind_eq_bind, hei, Option.some_bind, hh, if_neg hih, hp, hpe, ht,
    Option.pure_def, if_true, eq_self_iff_true]

/-- Evaluation of `unlink` at an interior slot. -/
theorem unlink_eval_mid (l : LruLane) (i h0 : Nat) (e : LruEntry)
    (hei : l.entries[i]? = some e) (hh : l.head = some h0) (hih : ¬i = h0)
    (p : Nat) (hp : e.prev = some p) (pe : LruEntry) (hpe : l.entries[p]? = some pe)
    (t0 : Nat) (ht : l.tail = some t0) (hit : ¬i = t0)
    (n : Nat) (hn : e.next = some n) (ne1 : LruEntry)
    (hne : (l.entries.set p { pe with next := some n })[n]? = some ne1) :
    l.unlink i = some { l with
      entries := (l.entries.set p { pe with next := some n }).set n
        { ne1 with prev := some p } } := by
  unfold LruLane.unlink
  simp only [Option.bind_eq_bind, hei, Option.some_bind, hh, if_neg hih, hp, hpe, ht,
    Option.pure_def, if_neg hit]
  simp only [hn, Option.some_bind, hne]

/-- An in-bounds index access as a `getD`. -/
theorem getElem?_eq_some_getD {α : Type} (l : List α) (i : Nat) (d : α)
    (h : i < l.length) : l[i]? = some (l.getD i d) := by
  rw [List.getElem?_eq_getElem h, List.getD_eq_getElem _ _ h]

/-- `push_front` of a fresh in-bounds slot preserves the link
invariant, putting the slot at the head. -/
theorem pushFront_spec (l : LruLane) (os : List Nat) (i : Nat)
    (hlink : LinkInv l os) (hi : i < l.entries.length) (hmem : i ∉ os)
    (hemp : os = [] → prevAt l i = none) :
    ∃ l', l.pushFront i = some l' ∧ LinkInv l' (i :: os) ∧
      l'.keys = l.keys ∧ l'.capacity = l.capacity ∧
      l'.entries.length = l.entries.length ∧
      (∀ j, lkeyAt l' j = lkeyAt l j) := by
  cases os with
  | nil =>
      have ht : l.tail = none := by rw [hlink.tailEq]; rfl
      refine ⟨{ l with tail := some i, head := some i },
        pushFront_eval_empty l i ht, ?_, rfl, rfl, rfl, fun j => rfl⟩
      refine ⟨List.nodup_singleton i, rfl, rfl, ?_, ?_, List.chain'_singleton i⟩
      · intro j hj
        rcases List.mem_singleton.mp hj with rfl
        exact hi
      · intro hd hh
        rcases Option.some.inj hh with rfl
        exact hemp rfl
  | cons a os2 =>
      have hha : l.head = some a := by rw [hlink.headEq]; rfl
      have ht : ¬l.tail = none := by
        rw [hlink.tailEq]
        cases os2 with
        | nil => simp
        | cons b t2 => simp [List.getLast?_cons_cons]
      have hia : i ≠ a := fun hx => hmem (hx ▸ List.mem_cons_self a os2)
      have halt : a < l.entries.length := hlink.memLt a (List.mem_cons_self a os2)
      have hnd := hlink.nodup
      rw [List.nodup_cons] at hnd
      set e := l.entries.getD i ⟨0, none, none⟩ with hedef
      set E1 := l.entries.set i { e with next := some a, prev := none } with hE1
      set ea := E1.getD a ⟨0, none, none⟩ with headef
      set E2 := E1.set a { ea with prev := some i } with hE2
      set L : LruLane := { l with entries := E2, head := some i } with hL
      have hei : l.entries[i]? = some e := getElem?_eq_some_getD _ _ _ hi
      have haE1 : a < E1.length := by rw [hE1, List.length_set]; exact halt
      have heaq : E1[a]? = some ea := getElem?_eq_some_getD _ _ _ haE1
      have heq : l.pushFront i = some L := pushFront_eval l i a ht hha e hei ea heaq
      have heaval : ea = l.entries.getD a ⟨0, none, none⟩ := by
        rw [headef, hE1]
        exact getD_set_ne _ _ _ _ _ hia
      have hgetD : ∀ j, E2.getD j ⟨0, none, none⟩ =
          if j = a then { ea with prev := some i }
          else if j = i then { e with next := some a, prev := none }
          else l.entries.getD j ⟨0, none, none⟩ := by
        intro j
        rw [hE2]
        by_cases hj : j = a
        · rw [if_pos hj, hj, getD_set_self _ _ _ _ haE1]
        · rw [if_neg hj, getD_set_ne _ _ _ _ _ (fun hx => hj hx.symm), hE1]
          by_cases hj2 : j = i
          · rw [if_pos hj2, hj2, getD_set_self _ _ _ _ hi]
          · rw [if_neg hj2, getD_set_ne _ _ _ _ _ (fun hx => hj2 hx.symm)]
      have hprevL : ∀ j, prevAt L j = (E2.getD j ⟨0, none, none⟩).prev := by
        intro j
        unfold prevAt
        rw [hL]
      have hnextL : ∀ j, nextAt L j = (E2.getD j ⟨0, none, none⟩).next := by
        intro j
        unfold nextAt
        rw [hL]
      have hkeyL : ∀ j, lkeyAt L j = (E2.getD j ⟨0, none, none⟩).key := by
        intro j
        unfold lkeyAt
        rw [hL]
      have hprev_i : prevAt L i = none := by
        rw [hprevL, hgetD, if_neg hia, if_pos rfl]
      have hnext_i : nextAt L i = some a := by
        rw [hnextL, hgetD, if_neg hia, if_pos rfl]
      have hprev_a : prevAt L a = some i := by
        rw [hprevL, hgetD, if_pos rfl]
      have hnext_a : nextAt L a = nextAt l a := by
        rw [hnextL, hgetD, if_pos rfl]
        show ea.next = nextAt l a
        rw [heaval]
        rfl
      have hprev_other : ∀ j, j ≠ i → j ≠ a → prevAt L j = prevAt l j := by
        intro j hji hja
        rw [hprevL, hgetD, if_neg hja, if_neg hji]
        rfl
      have hnext_other : ∀ j, j ≠ i → j ≠ a → nextAt L j = nextAt l j := by
        intro j hji hja
        rw [hnextL, hgetD, if_neg hja, if_neg hji]
        rfl
      refine ⟨L, heq, ?_, rfl, rfl, by rw [hL, hE2, hE1]; simp, ?_⟩
      · refine ⟨?_, rfl, ?_, ?_, ?_, ?_⟩
        · rw [List.nodup_cons]
          exact ⟨hmem, hlink.nodup⟩
        · show L.tail = (i :: a :: os2).getLast?
          rw [hL]
          show l.tail = (i :: a :: os2).getLast?
          rw [hlink.tailEq, List.getLast?_cons_cons]
        · intro j hj
          show j < L.entries.length
          rw [show L.entries.length = l.entries.length by rw [hL, hE2, hE1]; simp]
          rcases List.mem_cons.mp hj with rfl | hj2
          · exact hi
          · exact hlink.memLt j hj2
        · intro hd hh
          rcases Option.some.inj hh with rfl
          exact hprev_i
        · rw [List.chain'_cons]
          refine ⟨⟨hnext_i, hprev_a⟩, ?_⟩
          apply chain'_mono_adj (a :: os2) hlink.lnk.2
          intro x hx y hy hr
          have hxi : x ≠ i := fun hxx => hmem (hxx ▸ List.mem_of_mem_dropLast hx)
          have hyi : y ≠ i := fun hyy => hmem (hyy ▸ List.mem_of_mem_tail hy)
          have hya : y ≠ a := fun hyy => hnd.1 (hyy ▸ hy)
          constructor
          · by_cases hxa : x = a
            · rw [hxa, hnext_a]
              exact (hxa ▸ hr.1)
            · rw [hnext_other x hxi hxa]
              exact hr.1
          · rw [hprev_other y hyi hya]
            exact hr.2
      · intro j
        rw [hkeyL, hgetD]
        by_cases hja : j = a
        · rw [if_pos hja]
          show ea.key = lkeyAt l j
          rw [heaval, hja]
          rfl
        · rw [if_neg hja]
          by_cases hji : j = i
          · rw [if_pos hji, hji]
            rfl
          · rw [if_neg hji]
            rfl

/-- `unlink` of a non-head slot preserves the link invariant,
removing the slot from the recency list. -/
theorem unlink_spec (l : LruLane) (a : Nat) (os2 : List Nat) (i : Nat)
    (hlink : LinkInv l (a :: os2)) (hi : i ∈ os2) :
    ∃ l', l.unlink i = some l' ∧ LinkInv l' ((a :: os2).erase i) ∧
      l'.keys = l.keys ∧ l'.capacity = l.capacity ∧
      l'.entries.length = l.entries.length ∧
      (∀ j, lkeyAt l' j = lkeyAt l j) := by
  obtain ⟨pre, post, hsplit⟩ := List.append_of_mem hi
  subst hsplit
  have hos : a :: (pre ++ i :: post) = (a :: pre) ++ i :: post := rfl
  rw [hos] at hlink
  rw [hos]
  set P := a :: pre with hP
  have hnd := hlink.nodup
  rw [List.nodup_append] at hnd
  obtain ⟨hPnd, hipnd, hdisj⟩ := hnd
  rw [List.nodup_cons] at hipnd
  have hiP : i ∉ P := fun hx => hdisj hx (List.mem_cons_self i post)
  have hia : ¬i = a := fun hx => hiP (hx ▸ List.mem_cons_self a pre)
  have hha : l.head = some a := by
    rw [hlink.headEq, hP]
    rfl
  -- the predecessor u of i: the last element of P
  obtain ⟨P0, u, hPdecomp⟩ : ∃ P0 u, P = P0 ++ [u] := by
    rcases List.eq_nil_or_concat P with hnil | ⟨P0, u, hcons⟩
    · rw [hP] at hnil
      cases hnil
    · exact ⟨P0, u, by rw [hcons, List.concat_eq_append]⟩
  have hPlast : P.getLast? = some u := by
    rw [hPdecomp, List.getLast?_concat]
  have huP : u ∈ P := by
    rw [hPdecomp]
    simp
  have hui : u ≠ i := fun hx => hdisj (hx ▸ huP) (List.mem_cons_self i post)
  have hchain := hlink.lnk.2
  rw [List.chain'_append] at hchain
  obtain ⟨hcP, hcip, hconn⟩ := hchain
  have hRui := hconn u (Option.mem_def.mpr hPlast) i (by simp)
  have hilt : i < l.entries.length :=
    hlink.memLt i (by simp)
  have hult : u < l.entries.length :=
    hlink.memLt u (List.mem_append.mpr (Or.inl huP))
  have hei := getElem?_eq_some_getD l.entries i ⟨0, none, none⟩ hilt
  have hpe := getElem?_eq_some_getD l.entries u ⟨0, none, none⟩ hult
  have hep : (l.entries.getD i ⟨0, none, none⟩).prev = some u := hRui.2
  have hu_notLastP : u ∉ P.dropLast := by
    rw [hPdecomp, List.dropLast_concat]
    rw [hPdecomp, List.nodup_append] at hPnd
    exact fun hx => hPnd.2.2 hx (List.mem_singleton.mpr rfl)
  have herase : (P ++ i :: post).erase i = P ++ post := by
    rw [List.erase_append_right _ hiP, List.erase_cons_head]
  cases post with
  | nil =>
      have htail : l.tail = some i := by
        rw [hlink.tailEq, List.getLast?_concat]
      have heq := unlink_eval_tail l i a _ hei hha hia u hep _ hpe htail
      rw [herase]
      refine ⟨_, heq, ?_, rfl, rfl, by simp, ?_⟩
      · have hprevL : ∀ j, prevAt { l with
            entries := l.entries.set u
              { l.entries.getD u ⟨0, none, none⟩ with
                next := (l.entries.getD i ⟨0, none, none⟩).next },
            tail := some u } j = prevAt l j := by
          intro j
          unfold prevAt
          by_cases hju : j = u
          · rw [hju, getD_set_self _ _ _ _ hult]
          · rw [getD_set_ne _ _ _ _ _ (fun hx => hju hx.symm)]
        have hnextL : ∀ j, j ≠ u → nextAt { l with
            entries := l.entries.set u
              { l.entries.getD u ⟨0, none, none⟩ with
                next := (l.entries.getD i ⟨0, none, none⟩).next },
            tail := some u } j = nextAt l j := by
          intro j hju
          unfold nextAt
          rw [getD_set_ne _ _ _ _ _ (fun hx => hju hx.symm)]
        refine ⟨by simpa using hPnd, ?_, ?_, ?_, ?_, ?_⟩
        · show l.head = (P ++ []).head?
          rw [List.append_nil, hha, hP]
          rfl
        · show some u = (P ++ []).getLast?
          rw [List.append_nil, hPlast]
        · intro j hj
          show j < (l.entries.set u _).length
          rw [List.length_set]
          exact hlink.memLt j (List.mem_append.mpr (Or.inl (by simpa using hj)))
        · intro hd hh
          rw [List.append_nil] at hh
          rw [hprevL]
          have := hlink.lnk.1 hd (by rw [hP] at hh ⊢; simpa using hh)
          exact this
        · rw [List.append_nil]
          apply chain'_mono_adj P hcP
          intro x hx y hy hr
          have hxu : x ≠ u := fun hxx => hu_notLastP (hxx ▸ hx)
          constructor
          · rw [hnextL x hxu]
            exact hr.1
          · rw [hprevL]
            exact hr.2
      · intro j
        unfold lkeyAt
        by_cases hju : j = u
        · rw [hju]
          show (l.entries.set u _ |>.getD u ⟨0, none, none⟩).key = _
          rw [getD_set_self _ _ _ _ hult]
        · show (l.entries.set u _ |>.getD j ⟨0, none, none⟩).key = _
          rw [getD_set_ne _ _ _ _ _ (fun hx => hju hx.symm)]
  | cons p0 post2 =>
      have hip0 : (l.entries.getD i ⟨0, none, none⟩).next = some p0 := by
        rw [List.chain'_cons] at hcip
        exact hcip.1.1
      have hprev_p0 : prevAt l p0 = some i := by
        rw [List.chain'_cons] at hcip
        exact hcip.1.2
      obtain ⟨Q, w, hQdecomp⟩ : ∃ Q w, p0 :: post2 = Q ++ [w] := by
        rcases List.eq_nil_or_concat (p0 :: post2) with hnil | ⟨Q, w, hcons⟩
        · cases hnil
        · exact ⟨Q, w, by rw [hcons, List.concat_eq_append]⟩
      have hw : (p0 :: post2).getLast? = some w := by
        rw [hQdecomp, List.getLast?_concat]
      have hwmem : w ∈ p0 :: post2 := by
        rw [hQdecomp]
        simp
      have htail : l.tail = some w := by
        rw [hlink.tailEq, List.getLast?_append, List.getLast?_cons_cons, hw]
        rfl
      have hiw : ¬i = w := fun hx => hipnd.1 (hx ▸ hwmem)
      have hp0post : p0 ∈ i :: p0 :: post2 := List.mem_cons_of_mem _ (List.mem_cons_self _ _)
      have hup0 : u ≠ p0 := fun hx => hdisj (hx ▸ huP) (hx ▸ hp0post)
      have hp0lt : p0 < l.entries.length :=
        hlink.memLt p0 (List.mem_append.mpr (Or.inr hp0post))
      set pe := l.entries.getD u ⟨0, none, none⟩ with hpedef
      set e := l.entries.getD i ⟨0, none, none⟩ with hedef
      set A := { pe with next := some p0 } with hA
      set E1 := l.entries.set u A with hE1m
      set ne1 := E1.getD p0 ⟨0, none, none⟩ with hne1def
      set B := { ne1 with prev := some u } with hB
      set E2 := E1.set p0 B with hE2m
      set L : LruLane := { l with entries := E2 } with hLm
      have hp0lt2 : p0 < E1.length := by
        rw [hE1m, List.length_set]
        exact hp0lt
      have hne1q : E1[p0]? = some ne1 := getElem?_eq_some_getD _ _ _ hp0lt2
      have hne1val : ne1 = l.entries.getD p0 ⟨0, none, none⟩ := by
        rw [hne1def, hE1m]
        exact getD_set_ne _ _ _ _ _ hup0
      have heq : l.unlink i = some L :=
        unlink_eval_mid l i a e hei hha hia u hep pe hpe w htail hiw p0 hip0 ne1 hne1q
      have hlenL : L.entries.length = l.entries.length := by
        rw [hLm]
        show E2.length = _
        rw [hE2m, List.length_set, hE1m, List.length_set]
      have hgetD2 : ∀ j, E2.getD j ⟨0, none, none⟩ =
          if j = p0 then B else if j = u then A
          else l.entries.getD j ⟨0, none, none⟩ := by
        intro j
        rw [hE2m]
        by_cases hj : j = p0
        · rw [if_pos hj, hj, getD_set_self _ _ _ _ hp0lt2]
        · rw [if_neg hj, getD_set_ne _ _ _ _ _ (fun hx => hj hx.symm), hE1m]
          by_cases hj2 : j = u
          · rw [if_pos hj2, hj2, getD_set_self _ _ _ _ hult]
          · rw [if_neg hj2, getD_set_ne _ _ _ _ _ (fun hx => hj2 hx.symm)]
      have hprevL : ∀ j, j ≠ p0 → prevAt L j = prevAt l j := by
        intro j hj
        unfold prevAt
        show (E2.getD j ⟨0, none, none⟩).prev = _
        rw [hgetD2, if_neg hj]
        by_cases hj2 : j = u
        · rw [if_pos hj2, hj2]
        · rw [if_neg hj2]
      have hprevLp0 : prevAt L p0 = some u := by
        unfold prevAt
        show (E2.getD p0 ⟨0, none, none⟩).prev = _
        rw [hgetD2, if_pos rfl]
      have hnextL : ∀ j, j ≠ u → nextAt L j = nextAt l j := by
        intro j hj
        unfold nextAt
        show (E2.getD j ⟨0, none, none⟩).next = _
        rw [hgetD2]
        by_cases hjp : j = p0
        · rw [if_pos hjp, hjp]
          show ne1.next = _
          rw [hne1val]
        · rw [if_neg hjp, if_neg hj]
      have hnextLu : nextAt L u = some p0 := by
        unfold nextAt
        show (E2.getD u ⟨0, none, none⟩).next = _
        rw [hgetD2, if_neg hup0, if_pos rfl]
      rw [herase]
      refine ⟨L, heq, ?_, rfl, rfl, hlenL, ?_⟩
      · refine ⟨?_, ?_, ?_, ?_, ?_, ?_⟩
        · apply List.Nodup.sublist _ hlink.nodup
          exact (List.sublist_cons_self i (p0 :: post2)).append_left P
        · show L.head = (P ++ p0 :: post2).head?
          rw [hLm]
          show l.head = _
          rw [hha, hP]
          rfl
        · show L.tail = (P ++ p0 :: post2).getLast?
          rw [hLm]
          show l.tail = _
          rw [htail, List.getLast?_append, hw]
          rfl
        · intro j hj
          show j < L.entries.length
          rw [hlenL]
          rcases List.mem_append.mp hj with hj1 | hj2
          · exact hlink.memLt j (List.mem_append.mpr (Or.inl hj1))
          · exact hlink.memLt j
              (List.mem_append.mpr (Or.inr (List.mem_cons_of_mem _ hj2)))
        · intro hd hh
          have hda : hd = a := by
            rw [hP] at hh
            simp at hh
            omega
          subst hda
          have hdp0 : hd ≠ p0 := fun hx => hdisj (List.mem_cons_self _ _) (hx ▸ hp0post)
          rw [hprevL hd hdp0]
          exact hlink.lnk.1 hd (by rw [hP]; rfl)
        · rw [List.chain'_append]
          refine ⟨?_, ?_, ?_⟩
          · apply chain'_mono_adj P hcP
            intro x hx y hy hr
            have hxu : x ≠ u := fun hxx => hu_notLastP (hxx ▸ hx)
            have hyp0 : y ≠ p0 := fun hyy =>
              hdisj (List.mem_of_mem_tail hy) (hyy ▸ hp0post)
            exact ⟨by rw [hnextL x hxu]; exact hr.1, by rw [hprevL y hyp0]; exact hr.2⟩
          · have hcp2 : List.Chain'
                (fun x y => nextAt l x = some y ∧ prevAt l y = some x) (p0 :: post2) := by
              rw [List.chain'_cons] at hcip
              exact hcip.2
            apply chain'_mono_adj (p0 :: post2) hcp2
            intro x hx y hy hr
            have hxmem : x ∈ i :: p0 :: post2 :=
              List.mem_cons_of_mem _ (List.mem_of_mem_dropLast hx)
            have hxu : x ≠ u := fun hxx => hdisj (hxx ▸ huP) (hxx ▸ hxmem)
            have hyp0 : y ≠ p0 := by
              have := hipnd.2
              rw [List.nodup_cons] at this
              exact fun hyy => this.1 (hyy ▸ hy)
            exact ⟨by rw [hnextL x hxu]; exact hr.1, by rw [hprevL y hyp0]; exact hr.2⟩
          · intro x hx y hy
            have hxu : x = u := by
              rw [hPlast] at hx
              simp at hx
              omega
            have hyp0 : y = p0 := by
              simp at hy
              omega
            subst hxu
            subst hyp0
            exact ⟨hnextLu, hprevLp0⟩
      · intro j
        unfold lkeyAt
        show (E2.getD j ⟨0, none, none⟩).key = _
        rw [hgetD2]
        by_cases hjp : j = p0
        · rw [if_pos hjp, hjp]
          show ne1.key = _
          rw [hne1val]
        · rw [if_neg hjp]
          by_cases hju : j = u
          · rw [if_pos hju, hju]
          · rw [if_neg hju]

/-- `touch` preserves the link invariant, moving the slot to the
head of the recency list. -/
theorem touch_spec (l : LruLane) (os : List Nat) (i : Nat)
    (hlink : LinkInv l os) (hi : i ∈ os) :
    ∃ l', l.touch i = some l' ∧ LinkInv l' (i :: os.erase i) ∧
      l'.keys = l.keys ∧ l'.capacity = l.capacity ∧
      l'.entries.length = l.entries.length ∧
      (∀ j, lkeyAt l' j = lkeyAt l j) := by
  cases os with
  | nil => exact absurd hi (List.not_mem_nil i)
  | cons a os2 =>
    have hha : l.head = some a := by rw [hlink.headEq]; rfl
    by_cases hia : i = a
    · subst hia
      refine ⟨l, ?_, ?_, rfl, rfl, rfl, fun j => rfl⟩
      · show l.touch i = some l
        unfold LruLane.touch
        rw [hha]
        simp
      · rw [List.erase_cons_head]
        exact hlink
    · have hi2 : i ∈ os2 := by
        rcases List.mem_cons.mp hi with h | h
        · exact absurd h hia
        · exact h
      obtain ⟨l1, hul, hlink1, hk1, hc1, hlen1, hkey1⟩ := unlink_spec l a os2 i hlink hi2
      have hilt1 : i < l1.entries.length := by
        rw [hlen1]
        exact hlink.memLt i hi
      have hnotmem : i ∉ (a :: os2).erase i := by
        intro hx
        exact ((hlink.nodup.mem_erase_iff).mp hx).1 rfl
      have hlenE : ((a :: os2).erase i).length = os2.length := by
        rw [List.length_erase_of_mem hi]
        rfl
      have herne : (a :: os2).erase i ≠ [] := by
        intro h
        rw [h] at hlenE
        exact List.ne_nil_of_mem hi2 (List.length_eq_zero.mp hlenE.symm)
      obtain ⟨l2, hpf, hlink2, hk2, hc2, hlen2, hkey2⟩ :=
        pushFront_spec l1 ((a :: os2).erase i) i hlink1 hilt1 hnotmem
          (fun h => absurd h herne)
      refine ⟨l2, ?_, hlink2, by rw [hk2, hk1], by rw [hc2, hc1],
        by rw [hlen2, hlen1], fun j => by rw [hkey2, hkey1]⟩
      show l.touch i = some l2
      unfold LruLane.touch
      rw [hha]
      simp only [Option.bind_eq_bind, Option.some_bind, if_neg hia, hul]
      exact hpf

/-- Evaluation of `index` on a mapped key. -/
theorem index_eval_hit (l : LruLane) (key i : Nat) (hlk : hmLookup l.keys key = some i)
    (l' : LruLane) (htc : l.touch i = some l') :
    l.index key = some (l', i, false) := by
  unfold LruLane.index
  rw [hlk]
  simp only [Option.bind_eq_bind, htc, Option.some_bind, Option.pure_def]

/-- Evaluation of `index` on a miss with spare capacity. -/
theorem index_eval_notfull (l : LruLane) (key : Nat) (hlk : hmLookup l.keys key = none)
    (hfull : ¬l.entries.length = l.capacity) (l2 : LruLane)
    (hpf : LruLane.pushFront { l with entries := l.entries ++ [⟨key, none, none⟩] }
      l.entries.length = some l2) :
    l.index key =
      some ({ l2 with keys := hmInsert l2.keys key l.entries.length },
        l.entries.length, true) := by
  unfold LruLane.index
  rw [hlk]
  simp only [Option.bind_eq_bind, if_neg hfull, Option.pure_def, Option.some_bind, hpf]

/-- Evaluation of `index` on a miss at full capacity. -/
theorem index_eval_full (l : LruLane) (key t : Nat) (hlk : hmLookup l.keys key = none)
    (hfull : l.entries.length = l.capacity)
    (ht : l.tail = some t) (e : LruEntry) (het : l.entries[t]? = some e)
    (j : Nat) (hjk : hmLookup l.keys e.key = some j) (l2 : LruLane)
    (hpf : LruLane.pushFront
      { l with keys := hmErase l.keys e.key,
               entries := l.entries.set t { e with key := key },
               tail := e.prev } t = some l2) :
    l.index key = some ({ l2 with keys := hmInsert l2.keys key t }, t, false) := by
  unfold LruLane.index
  rw [hlk]
  simp only [Option.bind_eq_bind, if_pos hfull, LruLane.popBack, ht, Option.some_bind,
    het, Option.pure_def, hjk, hpf]

/-- The link invariant ignores the key map. -/
theorem linkInv_keys (l : LruLane) (K : List (Nat × Nat)) (os : List Nat)
    (h : LinkInv l os) : LinkInv { l with keys := K } os := by
  refine ⟨h.nodup, h.headEq, h.tailEq, ?_, ?_⟩
  · intro i hi
    show i < l.entries.length
    exact h.memLt i hi
  · exact linkedFrom_congr l _ none os h.lnk (fun i _ => rfl) (fun i _ => rfl)

/-- Appending a slot to the entry vector preserves the link
invariant. -/
theorem linkInv_append (l : LruLane) (os : List Nat) (v : LruEntry)
    (hlink : LinkInv l os) : LinkInv { l with entries := l.entries ++ [v] } os := by
  have hpn : ∀ i ∈ os, prevAt { l with entries := l.entries ++ [v] } i = prevAt l i := by
    intro i hi
    unfold prevAt
    show ((l.entries ++ [v]).getD i _).prev = _
    rw [getD_append_left _ _ _ _ (hlink.memLt i hi)]
  have hnn : ∀ i ∈ os, nextAt { l with entries := l.entries ++ [v] } i = nextAt l i := by
    intro i hi
    unfold nextAt
    show ((l.entries ++ [v]).getD i _).next = _
    rw [getD_append_left _ _ _ _ (hlink.memLt i hi)]
  refine ⟨hlink.nodup, hlink.headEq, hlink.tailEq, ?_,
    linkedFrom_congr l _ none os hlink.lnk hpn hnn⟩
  intro i hi
  show i < (l.entries ++ [v]).length
  rw [List.length_append]
  have := hlink.memLt i hi
  omega

/-- `index` never panics on a lane satisfying the invariant with
positive capacity, and preserves the invariant. -/
theorem index_spec (l : LruLane) (os : List Nat) (key : Nat)
    (hinv : LaneInv l os) (hcap : 1 ≤ l.capacity) :
    ∃ l' i b os', l.index key = some (l', i, b) ∧ LaneInv l' os' ∧
      l'.capacity = l.capacity := by
  obtain ⟨hlink, hkeys, hoslen, hcaple⟩ := hinv
  rcases hlk : hmLookup l.keys key with _ | i
  · -- miss
    by_cases hfull : l.entries.length = l.capacity
    · -- full: evict the tail slot and reuse it
      have hosne : os ≠ [] := by
        intro h
        rw [h] at hoslen
        simp only [List.length_nil] at hoslen
        omega
      obtain ⟨os0, t, hosdec⟩ : ∃ os0 t, os = os0 ++ [t] := by
        rcases List.eq_nil_or_concat os with h | ⟨os0, t, h⟩
        · exact absurd h hosne
        · exact ⟨os0, t, by rw [h, List.concat_eq_append]⟩
      subst hosdec
      have htos : t ∈ os0 ++ [t] :=
        List.mem_append.mpr (Or.inr (List.mem_singleton.mpr rfl))
      have htlt : t < l.entries.length := hlink.memLt t htos
      set e := l.entries.getD t ⟨0, none, none⟩ with hedef
      have het : l.entries[t]? = some e := getElem?_eq_some_getD _ _ _ htlt
      have ht : l.tail = some t := by
        rw [hlink.tailEq, List.getLast?_concat]
      have hekey : lkeyAt l t = e.key := rfl
      have hjk : hmLookup l.keys e.key = some t := by
        rw [← hekey]
        exact hkeys.complete t htos
      have hkne : key ≠ e.key := by
        intro hx
        rw [hx, hjk] at hlk
        cases hlk
      have hnd0 := hlink.nodup
      rw [List.nodup_append] at hnd0
      obtain ⟨hos0nd, _, hdisj0⟩ := hnd0
      have htnot0 : t ∉ os0 := fun hx => hdisj0 hx (List.mem_singleton.mpr rfl)
      obtain ⟨hl0, hemp0, hlast0⟩ := linkedFrom_concat l none os0 t hlink.lnk
      set l1 : LruLane := { l with keys := hmErase l.keys e.key,
                                   entries := l.entries.set t { e with key := key },
                                   tail := e.prev } with hl1def
      have hl1len : l1.entries.length = l.entries.length := by
        show (l.entries.set t { e with key := key }).length = _
        rw [List.length_set]
      have hkey1 : ∀ j, lkeyAt l1 j = if j = t then key else lkeyAt l j := by
        intro j
        unfold lkeyAt
        show ((l.entries.set t { e with key := key }).getD j ⟨0, none, none⟩).key = _
        by_cases hj : j = t
        · rw [if_pos hj, hj, getD_set_self _ _ _ _ htlt]
        · rw [if_neg hj, getD_set_ne _ _ _ _ _ (fun hx => hj hx.symm)]
      have hprev1 : ∀ j, j ≠ t → prevAt l1 j = prevAt l j := by
        intro j hj
        unfold prevAt
        show ((l.entries.set t { e with key := key }).getD j ⟨0, none, none⟩).prev = _
        rw [getD_set_ne _ _ _ _ _ (fun hx => hj hx.symm)]
      have hnext1 : ∀ j, j ≠ t → nextAt l1 j = nextAt l j := by
        intro j hj
        unfold nextAt
        show ((l.entries.set t { e with key := key }).getD j ⟨0, none, none⟩).next = _
        rw [getD_set_ne _ _ _ _ _ (fun hx => hj hx.symm)]
      have hprevt : prevAt l t = e.prev := rfl
      obtain ⟨l2, hpf, hlink2, hk2, hc2, hlen2, hkey2⟩ :
          ∃ l2, l1.pushFront t = some l2 ∧ LinkInv l2 (t :: os0) ∧
            l2.keys = l1.keys ∧ l2.capacity = l.capacity ∧
            l2.entries.length = l1.entries.length ∧
            (∀ j, lkeyAt l2 j = lkeyAt l1 j) := by
        cases os0 with
        | nil =>
            have hep : e.prev = none := by
              rw [← hprevt]
              exact hemp0 rfl
            have hl1t : l1.tail = none := hep
            refine ⟨{ l1 with tail := some t, head := some t },
              pushFront_eval_empty l1 t hl1t, ?_, rfl, rfl, rfl, fun j => rfl⟩
            refine ⟨List.nodup_singleton t, rfl, rfl, ?_, ?_, List.chain'_singleton t⟩
            · intro j hj
              rcases List.mem_singleton.mp hj with rfl
              show j < l1.entries.length
              rw [hl1len]
              exact htlt
            · intro hd hh
              rcases Option.some.inj hh with rfl
              show ((l.entries.set t { e with key := key }).getD t ⟨0, none, none⟩).prev
                = none
              rw [getD_set_self _ _ _ _ htlt]
              exact hep
        | cons b os0p =>
            have hbne : (b :: os0p) ≠ [] := List.cons_ne_nil _ _
            obtain ⟨u, hu⟩ : ∃ u, (b :: os0p).getLast? = some u := by
              rcases hx : (b :: os0p).getLast? with _ | u
              · rw [List.getLast?_eq_none_iff] at hx
                cases hx
              · exact ⟨u, rfl⟩
            obtain ⟨hpu, hnu⟩ := hlast0 u hu
            have hl1tail : l1.tail = (b :: os0p).getLast? := by
              show e.prev = _
              rw [hu, ← hprevt]
              exact hpu
            have hmemlt1 : ∀ j ∈ b :: os0p, j < l1.entries.length := by
              intro j hj
              rw [hl1len]
              exact hlink.memLt j (List.mem_append.mpr (Or.inl hj))
            have hlink1 : LinkInv l1 (b :: os0p) := by
              refine ⟨hos0nd, ?_, hl1tail, hmemlt1, ?_⟩
              · show l.head = _
                rw [hlink.headEq]
                rfl
              · refine linkedFrom_congr l l1 none _ hl0 ?_ ?_
                · intro j hj
                  exact hprev1 j (fun hx => htnot0 (hx ▸ hj))
                · intro j hj
                  exact hnext1 j (fun hx => htnot0 (hx ▸ hj))
            obtain ⟨l2, hpf, hlink2, hk2, hc2p, hlen2, hkey2⟩ :=
              pushFront_spec l1 (b :: os0p) t hlink1 (by rw [hl1len]; exact htlt)
                htnot0 (fun hx => absurd hx hbne)
            exact ⟨l2, hpf, hlink2, hk2, by rw [hc2p], hlen2, hkey2⟩
      have hkeyF : ∀ j, lkeyAt l2 j = if j = t then key else lkeyAt l j := by
        intro j
        rw [hkey2 j, hkey1 j]
      have hk2e : l2.keys = hmErase l.keys e.key := hk2
      refine ⟨{ l2 with keys := hmInsert l2.keys key t }, t, false, t :: os0,
        index_eval_full l key t hlk hfull ht e het t hjk l2 hpf,
        ⟨linkInv_keys l2 _ _ hlink2, ⟨?_, ?_, ?_, ?_⟩, ?_, ?_⟩, hc2⟩
      · show ((hmInsert l2.keys key t).map Prod.fst).Nodup
        rw [hk2e]
        exact hmInsert_fst_nodup _ _ _ (hmErase_fst_nodup _ _ hkeys.fstNodup)
      · intro k j hj
        by_cases hkk : k = key
        · rw [hkk, hmLookup_hmInsert_self] at hj
          have hjl : j = t := (Option.some.inj hj).symm
          subst hjl
          refine ⟨List.mem_cons_self _ _, ?_⟩
          show lkeyAt l2 j = k
          rw [hkeyF, if_pos rfl, hkk]
        · rw [hmLookup_hmInsert_ne _ _ _ _ hkk, hk2e] at hj
          by_cases hke : k = e.key
          · rw [hke, hmLookup_hmErase_self _ _ hkeys.fstNodup] at hj
            cases hj
          · rw [hmLookup_hmErase_ne _ _ _ hke] at hj
            obtain ⟨hj1, hj2⟩ := hkeys.sound k j hj
            have hjt : j ≠ t := by
              intro hx
              rw [hx] at hj2
              apply hke
              rw [← hj2, hekey]
            refine ⟨?_, ?_⟩
            · rcases List.mem_append.mp hj1 with h1 | h1
              · exact List.mem_cons_of_mem _ h1
              · exact absurd (List.mem_singleton.mp h1) hjt
            · show lkeyAt l2 j = k
              rw [hkeyF, if_neg hjt]
              exact hj2
      · intro j hj
        rcases List.mem_cons.mp hj with hj1 | hj2
        · show hmLookup (hmInsert l2.keys key t) (lkeyAt l2 j) = some j
          rw [hkeyF j, if_pos hj1, hj1]
          exact hmLookup_hmInsert_self _ _ _
        · have hjt : j ≠ t := fun hx => htnot0 (hx ▸ hj2)
          show hmLookup (hmInsert l2.keys key t) (lkeyAt l2 j) = some j
          rw [hkeyF j, if_neg hjt]
          have hjos : j ∈ os0 ++ [t] := List.mem_append.mpr (Or.inl hj2)
          have hcomp := hkeys.complete j hjos
          have hknk : lkeyAt l j ≠ key := by
            intro hx
            rw [hx, hlk] at hcomp
            cases hcomp
          have hkne2 : lkeyAt l j ≠ e.key := by
            intro hx
            rw [hx, hjk] at hcomp
            exact hjt (Option.some.inj hcomp).symm
          rw [hmLookup_hmInsert_ne _ _ _ _ hknk, hk2e, hmLookup_hmErase_ne _ _ _ hkne2]
          exact hcomp
      · show (hmInsert l2.keys key t).length = (t :: os0).length
        rw [hk2e]
        have hin : hmLookup (hmErase l.keys e.key) key = none := by
          rw [hmLookup_hmErase_ne _ _ _ hkne]
          exact hlk
        rw [hmInsert_length _ _ _ hin]
        have her := hmErase_length l.keys e.key t hjk
        have hkl := hkeys.keysLen
        simp only [List.length_append, List.length_cons, List.length_nil] at hkl ⊢
        omega
      · show (t :: os0).length = l2.entries.length
        rw [hlen2, hl1len, List.length_cons]
        simp only [List.length_append, List.length_cons, List.length_nil] at hoslen
        omega
      · show l2.entries.length ≤ l2.capacity
        rw [hlen2, hl1len, hc2]
        exact hcaple
    · -- not full: append a fresh slot
      set lA : LruLane := { l with entries := l.entries ++ [⟨key, none, none⟩] } with hlA
      have hkA : lA.keys = l.keys := rfl
      have hlinkA : LinkInv lA os := linkInv_append l os _ hlink
      have hlenA : lA.entries.length = l.entries.length + 1 := by
        show (l.entries ++ [(⟨key, none, none⟩ : LruEntry)]).length = _
        rw [List.length_append]
        rfl
      have hnlt : l.entries.length < lA.entries.length := by omega
      have hnmem : l.entries.length ∉ os :=
        fun hx => absurd (hlink.memLt _ hx) (lt_irrefl _)
      have hkeyA : ∀ j, lkeyAt lA j =
          if j = l.entries.length then key else lkeyAt l j := by
        intro j
        unfold lkeyAt
        show ((l.entries ++ [(⟨key, none, none⟩ : LruEntry)]).getD j ⟨0, none, none⟩).key = _
        by_cases hj : j = l.entries.length
        · rw [if_pos hj, hj, getD_append_self]
        · rw [if_neg hj]
          by_cases hj2 : j < l.entries.length
          · rw [getD_append_left _ _ _ _ hj2]
          · rw [List.getD_eq_default, List.getD_eq_default]
            · omega
            · rw [List.length_append]
              simp only [List.length_cons, List.length_nil]
              omega
      have hempA : os = [] → prevAt lA l.entries.length = none := by
        intro _
        unfold prevAt
        show ((l.entries ++ [(⟨key, none, none⟩ : LruEntry)]).getD l.entries.length ⟨0, none, none⟩).prev = none
        rw [getD_append_self]
      obtain ⟨l2, hpf, hlink2, hk2, hc2, hlen2, hkey2⟩ :=
        pushFront_spec lA os l.entries.length hlinkA hnlt hnmem hempA
      have hkeyF : ∀ j, lkeyAt l2 j =
          if j = l.entries.length then key else lkeyAt l j := by
        intro j
        rw [hkey2 j, hkeyA j]
      have hk2l : l2.keys = l.keys := hk2
      refine ⟨{ l2 with keys := hmInsert l2.keys key l.entries.length },
        l.entries.length, true, l.entries.length :: os,
        index_eval_notfull l key hlk hfull l2 hpf,
        ⟨linkInv_keys l2 _ _ hlink2, ⟨?_, ?_, ?_, ?_⟩, ?_, ?_⟩, hc2⟩
      · show ((hmInsert l2.keys key l.entries.length).map Prod.fst).Nodup
        rw [hk2l]
        exact hmInsert_fst_nodup _ _ _ hkeys.fstNodup
      · intro k j hj
        by_cases hkk : k = key
        · rw [hkk, hmLookup_hmInsert_self] at hj
          have hjl : j = l.entries.length := (Option.some.inj hj).symm
          subst hjl
          refine ⟨List.mem_cons_self _ _, ?_⟩
          show lkeyAt l2 l.entries.length = k
          rw [hkeyF, if_pos rfl, hkk]
        · rw [hmLookup_hmInsert_ne _ _ _ _ hkk, hk2l] at hj
          obtain ⟨hj1, hj2⟩ := hkeys.sound k j hj
          have hjne : j ≠ l.entries.length := by
            have := hlink.memLt j hj1
            omega
          refine ⟨List.mem_cons_of_mem _ hj1, ?_⟩
          show lkeyAt l2 j = k
          rw [hkeyF j, if_neg hjne]
          exact hj2
      · intro j hj
        rcases List.mem_cons.mp hj with hj1 | hj2
        · show hmLookup (hmInsert l2.keys key l.entries.length) (lkeyAt l2 j) = some j
          rw [hkeyF j, if_pos hj1, hj1]
          exact hmLookup_hmInsert_self _ _ _
        · have hjne : j ≠ l.entries.length := by
            have := hlink.memLt j hj2
            omega
          show hmLookup (hmInsert l2.keys key l.entries.length) (lkeyAt l2 j) = some j
          rw [hkeyF j, if_neg hjne]
          have hknk : lkeyAt l j ≠ key := by
            intro hx
            have := hkeys.complete j hj2
            rw [hx, hlk] at this
            cases this
          rw [hmLookup_hmInsert_ne _ _ _ _ hknk, hk2l]
          exact hkeys.complete j hj2
      · show (hmInsert l2.keys key l.entries.length).length = _
        rw [hk2l, hmInsert_length _ _ _ hlk, hkeys.keysLen]
        rfl
      · show (l.entries.length :: os).length = l2.entries.length
        rw [hlen2, hlenA, List.length_cons, hoslen]
      · show l2.entries.length ≤ l2.capacity
        rw [hlen2, hlenA, hc2]
        show l.entries.length + 1 ≤ lA.capacity
        show l.entries.length + 1 ≤ l.capacity
        omega
  · -- hit: key maps to slot i
    obtain ⟨hiin, hikey⟩ := hkeys.sound key i hlk
    obtain ⟨l', htc, hlink', hk', hc', hlen', hkey'⟩ := touch_spec l os i hlink hiin
    refine ⟨l', i, false, i :: os.erase i,
      index_eval_hit l key i hlk l' htc, ⟨hlink', ⟨?_, ?_, ?_, ?_⟩, ?_, ?_⟩, hc'⟩
    · rw [hk']
      exact hkeys.fstNodup
    · intro k j hj
      rw [hk'] at hj
      obtain ⟨hj1, hj2⟩ := hkeys.sound k j hj
      exact ⟨(List.perm_cons_erase hiin).mem_iff.mp hj1, by rw [hkey' j]; exact hj2⟩
    · intro j hj
      have hj0 : j ∈ os := (List.perm_cons_erase hiin).mem_iff.mpr hj
      rw [hk', hkey' j]
      exact hkeys.complete j hj0
    · rw [hk', hkeys.keysLen]
      exact (List.perm_cons_erase hiin).length_eq
    · rw [hlen', ← (List.perm_cons_erase hiin).length_eq]
      exact hoslen
    · rw [hlen', hc']
      exact hcaple

/-- Any sequence of `index` calls preserves the lane invariant. -/
theorem runKeys_spec (ks : List Nat) (l : LruLane) (os : List Nat)
    (hinv : LaneInv l os) (hcap : 1 ≤ l.capacity) :
    ∃ l' os', l.runKeys ks = some l' ∧ LaneInv l' os' ∧ l'.capacity = l.capacity := by
  induction ks generalizing l os with
  | nil => exact ⟨l, os, rfl, hinv, rfl⟩
  | cons k rest ih =>
      obtain ⟨l1, i, b, os1, hidx, hinv1, hc1⟩ := index_spec l os k hinv hcap
      obtain ⟨l2, os2, hrun, hinv2, hc2⟩ := ih l1 os1 hinv1 (by rw [hc1]; exact hcap)
      refine ⟨l2, os2, ?_, hinv2, by rw [hc2, hc1]⟩
      show LruLane.runKeys l (k :: rest) = some l2
      simp only [LruLane.runKeys, hidx]
      exact hrun

/-- The lane invariant implies the observable map-list agreement. -/
theorem laneInv_agree (l : LruLane) (os : List Nat) (hinv : LaneInv l os) :
    l.MapListAgree := by
  obtain ⟨hlink, hkeys, hoslen, hcaple⟩ := hinv
  have htrav : l.traversal = os.reverse := by
    unfold LruLane.traversal
    rw [hlink.tailEq]
    exact travGo_linked l os hlink.lnk l.entries.length (le_of_eq hoslen)
  refine ⟨?_, ?_, ?_, ?_, ?_, ?_⟩
  · rw [htrav]
    exact List.nodup_reverse.mpr hlink.nodup
  · intro p hp
    have hlkp : hmLookup l.keys p.1 = some p.2 :=
      hmLookup_of_mem _ _ _ hkeys.fstNodup (by rw [Prod.mk.eta]; exact hp)
    obtain ⟨h1, h2⟩ := hkeys.sound p.1 p.2 hlkp
    exact ⟨by rw [htrav]; exact List.mem_reverse.mpr h1, h2⟩
  · intro i hi
    rw [htrav] at hi
    exact hkeys.complete i (List.mem_reverse.mp hi)
  · rw [htrav, List.getLast?_reverse]
    exact hlink.headEq.symm
  · intro i hi hne
    rw [htrav] at hi
    have hlast : os.getLast? ≠ some i := by
      rw [← hlink.tailEq]
      exact hne
    obtain ⟨j, hr, hjos⟩ := chain'_succ os hlink.lnk.2 i (List.mem_reverse.mp hi) hlast
    exact ⟨j, hr.1, hr.2, by rw [htrav]; exact List.mem_reverse.mpr hjos⟩
  · rw [hkeys.keysLen, hoslen]
    exact hcaple

/-- C8 amended: starting from `LruLane::new(capacity)` with positive
capacity, after any sequence of `index` calls the key-to-slot map and the
recency list agree: the `prev`-traversal from the tail visits exactly the
mapped slots, once each, ending at the head; each mapped slot carries its
mapped key; every `next` link agrees with the `prev` links except possibly
the stale `next` of the tail; and the map never exceeds capacity.  (The
claim's full next/prev mutual consistency fails: see the counterexample.) -/
theorem lru_index_invariants (cap : Nat) (ks : List Nat) (hcap : 1 ≤ cap) :
    ∃ l, (LruLane.new cap).runKeys ks = some l ∧ l.MapListAgree := by
  have hinv0 : LaneInv (LruLane.new cap) [] := by
    refine ⟨⟨List.nodup_nil, rfl, rfl, ?_, ?_, List.chain'_nil⟩,
      ⟨List.nodup_nil, ?_, ?_, rfl⟩, rfl, Nat.zero_le _⟩
    · intro i hi
      cases hi
    · intro hd hh
      cases hh
    · intro k i h
      exact Option.noConfusion h
    · intro i hi
      cases hi
  obtain ⟨l', os', hrun, hinv', _⟩ := runKeys_spec ks (LruLane.new cap) [] hinv0 hcap
  exact ⟨l', hrun, laneInv_agree l' os' hinv'⟩

/-- Witness for C8 amended at capacity 2 over keys 0, 1, 2. -/
theorem lru_index_invariants_witness :
    1 ≤ 2 ∧ ∃ l, (LruLane.new 2).runKeys [0, 1, 2] = some l ∧ l.MapListAgree :=
  ⟨by decide, lru_index_invariants 2 [0, 1, 2] (by decide)⟩
